import Mathlib

/-!
Verification development for the greentic-runner host crate.

Shallow embedding of:
* `runner/contract_introspection.rs` (operation selection, JSON canonicalization,
  hash material),
* `operator_registry.rs` (`OperatorRegistry::resolve`),
* `runner/operator.rs` (`validation_options_from_flags`),
* `runner/schema_validator.rs` (`validate_json_instance`,
  `collect_unsupported_constraints`),
* `cache/memory.rs` (`MemoryCache`),
* `runner/contract_cache.rs` (`ContractCache`),
* `cache/disk.rs` (`DiskCache::write_atomic`, `try_read`, `approx_size_bytes`,
  `prune_to_limit`).

Machine integers (`u64`) are modelled as `Nat` with explicit saturation:
`saturating_add` is `satAdd` (capped at `2^64 - 1`) and `saturating_sub` is
`Nat` subtraction, which already saturates at zero.
-/

namespace Greentic

/-- `u64::MAX`. -/
def U64MAX : Nat := 2 ^ 64 - 1

/-- `u64::saturating_add`. -/
def satAdd (a b : Nat) : Nat := min (a + b) U64MAX

theorem satAdd_eq_add (a b : Nat) (h : a + b ≤ U64MAX) : satAdd a b = a + b := by
  simp [satAdd, Nat.min_eq_left h]

/-! ## JSON values

`serde_json::Value`; objects keep their entry list explicitly (a
`serde_json::Map` holds each key once, which theorems assume where needed). -/

inductive Json where
  | null : Json
  | bool : Bool → Json
  | num : Int → Json
  | str : String → Json
  | arr : List Json → Json
  | obj : List (String × Json) → Json

/-- `serde_json::Map::get`: the value bound to `k` (first binding). -/
def lookupJson : List (String × Json) → String → Option Json
  | [], _ => none
  | (k', v) :: rest, k => if k' = k then some v else lookupJson rest k

/-- `Value::get` on an object (none on any other variant). -/
def jsonGet : Json → String → Option Json
  | Json.obj entries, k => lookupJson entries k
  | _, _ => none

/-- `Value::as_array`. -/
def asArr : Json → Option (List Json)
  | Json.arr items => some items
  | _ => none

/-- `Value::as_str`. -/
def asStr : Json → Option String
  | Json.str s => some s
  | _ => none

/-! ## Operation selection (`contract_introspection.rs`) -/

/-- `operation_name`: `value.get("id").and_then(as_str)` falling back to
`value.get("name").and_then(as_str)`. -/
def operationName (value : Json) : Option String :=
  match (jsonGet value "id").bind asStr with
  | some s => some s
  | none => (jsonGet value "name").bind asStr

/-- `select_operation_from_describe`: note that both `find_map(..).filter(..)`
chains locate the first entry that has an id or name and only then compare
that single name against the request (resp. against `"run"`). -/
def selectOperationFromDescribe (payload : Json) (requestedOperation : String) :
    Option String :=
  match (jsonGet payload "operations").bind asArr with
  | none => none
  | some ops =>
    let requested :=
      match ops.findSome? operationName with
      | some name => if name = requestedOperation then some name else none
      | none => none
    match requested with
    | some r => some r
    | none =>
      match (match ops.findSome? operationName with
             | some name => if name = "run" then some name else none
             | none => none) with
      | some r => some r
      | none => ops.head?.bind operationName

/-! ## JSON canonicalization and hash material (`contract_introspection.rs`) -/

mutual
/-- Structural size of a JSON value (used as recursion fuel). -/
def jsonSize : Json → Nat
  | Json.null => 1
  | Json.bool _ => 1
  | Json.num _ => 1
  | Json.str _ => 1
  | Json.arr items => 1 + jsonSizeList items
  | Json.obj entries => 1 + jsonSizeObj entries

def jsonSizeList : List Json → Nat
  | [] => 0
  | j :: rest => 1 + jsonSize j + jsonSizeList rest

def jsonSizeObj : List (String × Json) → Nat
  | [] => 0
  | (_, v) :: rest => 1 + jsonSize v + jsonSizeObj rest
end

/-- `canonicalize_json` with a structural fuel (the wrapper passes `sizeOf`,
which always suffices): objects are rebuilt with keys sorted
lexicographically, looking each key up in the original map; arrays are
canonicalized pointwise in order; scalars are returned unchanged. -/
def canonicalizeFuel : Nat → Json → Json
  | 0, value => value
  | fuel + 1, value =>
    match value with
    | Json.obj map =>
      let keys := (map.map Prod.fst).insertionSort (fun a b => a ≤ b)
      Json.obj (keys.map (fun key =>
        (key,
          match lookupJson map key with
          | some v => canonicalizeFuel fuel v
          | none => Json.null)))
    | Json.arr items => Json.arr (items.map (canonicalizeFuel fuel))
    | other => other

/-- `canonicalize_json`. -/
def canonicalizeJson (value : Json) : Json := canonicalizeFuel (jsonSize value) value

/-- Well-formed JSON: every object holds each key at most once (true of
every `serde_json::Map`). -/
inductive JsonWF : Json → Prop where
  | null : JsonWF Json.null
  | bool (b : Bool) : JsonWF (Json.bool b)
  | num (n : Int) : JsonWF (Json.num n)
  | str (s : String) : JsonWF (Json.str s)
  | arr (items : List Json) : (∀ j ∈ items, JsonWF j) → JsonWF (Json.arr items)
  | obj (entries : List (String × Json)) : (entries.map Prod.fst).Nodup →
      (∀ p ∈ entries, JsonWF p.2) → JsonWF (Json.obj entries)

/-- Equality of JSON values up to reordering of object keys at any depth:
scalars must match, arrays match pointwise in order, objects carry the same
key multiset and agree (up to the relation) on every looked-up key. -/
inductive KeyPermEq : Json → Json → Prop where
  | null : KeyPermEq Json.null Json.null
  | bool (b : Bool) : KeyPermEq (Json.bool b) (Json.bool b)
  | num (n : Int) : KeyPermEq (Json.num n) (Json.num n)
  | str (s : String) : KeyPermEq (Json.str s) (Json.str s)
  | arr (xs ys : List Json) : xs.length = ys.length →
      (∀ p ∈ xs.zip ys, KeyPermEq p.1 p.2) →
      KeyPermEq (Json.arr xs) (Json.arr ys)
  | obj (es fs : List (String × Json)) :
      List.Perm (es.map Prod.fst) (fs.map Prod.fst) →
      (∀ k v w, lookupJson es k = some v → lookupJson fs k = some w →
        KeyPermEq v w) →
      KeyPermEq (Json.obj es) (Json.obj fs)

/-- `DescribeHashMaterial`: the fixed-shape record hashed into
`describe_hash`. -/
structure DescribeHashMaterial where
  component_ref : String
  operation : String
  world : String
  input_schema : Json
  output_schema : Json

/-- `SchemaHashMaterial`: the fixed-shape record hashed into `schema_hash`. -/
structure SchemaHashMaterial where
  component_ref : String
  operation : String
  input_schema : Json
  output_schema : Json
  config_schema : Json

/-- The describe-hash material as `introspect_component_contract` builds it:
extracted schemas pass through `canonicalize_json` first. -/
def describeMaterialOf (componentRef operation world : String)
    (inSchema outSchema : Json) : DescribeHashMaterial :=
  { component_ref := componentRef, operation := operation, world := world,
    input_schema := canonicalizeJson inSchema,
    output_schema := canonicalizeJson outSchema }

/-- The schema-hash material as `introspect_component_contract` builds it. -/
def schemaMaterialOf (componentRef operation : String)
    (inSchema outSchema cfgSchema : Json) : SchemaHashMaterial :=
  { component_ref := componentRef, operation := operation,
    input_schema := canonicalizeJson inSchema,
    output_schema := canonicalizeJson outSchema,
    config_schema := canonicalizeJson cfgSchema }

/-! ## Schema validator (`runner/schema_validator.rs`) -/

structure SchemaValidationIssue where
  code : String
  path : String
  message_key : String
  fallback : String
deriving DecidableEq

/-- `path_or_root`. -/
def pathOrRoot (path : String) : String := if path = "" then "" else path

/-- `collect_unsupported_constraints` with structural fuel (the wrapper
passes `sizeOf`, which always suffices): at each object, record the present
keys among `pattern`/`format`/`patternProperties`, then descend into object
values and into object items of array values. -/
def collectFuel : Nat → Json → String → List String
  | 0, _, _ => []
  | fuel + 1, schema, path =>
    match schema with
    | Json.obj map =>
      (["pattern", "format", "patternProperties"].filter
        (fun key => (lookupJson map key).isSome)).map
        (fun key => pathOrRoot path ++ "/" ++ key)
      ++ (map.map (fun kv =>
            let next := pathOrRoot path ++ "/" ++ kv.1
            match kv.2 with
            | Json.obj _ => collectFuel fuel kv.2 next
            | Json.arr items =>
              (items.enum.map (fun p =>
                collectFuel fuel p.2 (next ++ "/" ++ toString p.1))).flatten
            | _ => [])).flatten
    | _ => []

def collectUnsupportedConstraints (schema : Json) (path : String) : List String :=
  collectFuel (jsonSize schema) schema path

/-- One error of the external `jsonschema` validator. -/
structure ValidatorError where
  instancePath : String
  message : String

/-- The issue built for one unsupported-constraint location. -/
def mkUnsupportedIssue (path : String) : SchemaValidationIssue :=
  { code := "unsupported_schema_constraint", path := path,
    message_key := "runner.schema.unsupported_constraint",
    fallback := "schema contains unsupported constraint" }

/-- `validate_json_instance`; `compile` stands for the external `jsonschema`
draft-7 compiler (`Except.error` = compilation failure, otherwise a function
from the instance to its validation errors). -/
def validateJsonInstance
    (compile : Json → Except String (Json → List ValidatorError))
    (schema inst : Json) (strict : Bool) : List SchemaValidationIssue :=
  let unsupported := collectUnsupportedConstraints schema ""
  if strict && !unsupported.isEmpty then
    unsupported.map mkUnsupportedIssue
  else
    match compile schema with
    | Except.error err =>
      [{ code := "invalid_schema", path := "/",
         message_key := "runner.schema.invalid_schema",
         fallback := "invalid schema: " ++ err }]
    | Except.ok validator =>
      (validator inst).map (fun e =>
        { code := "schema_validation",
          path := if e.instancePath = "" then "/" else e.instancePath,
          message_key := "runner.schema.validation_failed",
          fallback := e.message })

/-- Does the JSON value contain the given object key anywhere, at any
nesting depth, including inside arrays (the claim's notion of "contains")? -/
def jsonContainsKey : Nat → Json → String → Bool
  | 0, _, _ => false
  | fuel + 1, Json.obj map, key =>
    (lookupJson map key).isSome ||
      (map.map (fun kv => jsonContainsKey fuel kv.2 key)).any id
  | fuel + 1, Json.arr items, key =>
    (items.map (fun j => jsonContainsKey fuel j key)).any id
  | _ + 1, _, _ => false

/-- A compiler oracle that accepts every schema and reports no errors. -/
def compileOk : Json → Except String (Json → List ValidatorError) :=
  fun _ => Except.ok (fun _ => [])

/-- A compiler oracle whose validator reports one error at the root
(empty instance path). -/
def compileErrPath : Json → Except String (Json → List ValidatorError) :=
  fun _ => Except.ok (fun _ => [{ instancePath := "", message := "boom" }])

/-- A schema whose only `pattern` key sits inside an array nested directly
inside another array. -/
def schemaNestedArr : Json :=
  Json.obj [("items", Json.arr [Json.arr [Json.obj [("pattern", Json.str "x")]]])]

/-- A schema with `pattern` inside an object item of an array. -/
def schemaArrObj : Json :=
  Json.obj [("anyOf", Json.arr [Json.obj [("pattern", Json.str "x")]])]

/-! ## Operator registry (`operator_registry.rs`) -/

inductive OperatorResolveError where
  | providerNotFound : OperatorResolveError
  | opNotFound : OperatorResolveError
deriving DecidableEq

/-- The two indexes of `OperatorRegistry`; `HashMap` lookups become function
application. `B` stands for `OperatorBinding`. -/
structure OperatorRegistry (B : Type) where
  perProviderId : String → Option (String → Option B)
  perProviderType : String → Option (String → Option B)

/-- `OperatorRegistry::resolve`. -/
def OperatorRegistry.resolve {B : Type} (reg : OperatorRegistry B)
    (providerId providerType : Option String) (opId : String) :
    Except OperatorResolveError B :=
  match providerId with
  | some id =>
    match reg.perProviderId id with
    | some ops =>
      match ops opId with
      | some b => Except.ok b
      | none => Except.error OperatorResolveError.opNotFound
    | none => Except.error OperatorResolveError.providerNotFound
  | none =>
    match providerType with
    | some ty =>
      match reg.perProviderType ty with
      | some ops =>
        match ops opId with
        | some b => Except.ok b
        | none => Except.error OperatorResolveError.opNotFound
      | none => Except.error OperatorResolveError.providerNotFound
    | none => Except.error OperatorResolveError.providerNotFound

/-! ## Validation options from request flags (`runner/operator.rs`) -/

structure ExecutionValidationOptions where
  validate_output : Bool
  strict : Bool
deriving DecidableEq

def FLAG_SKIP_OUTPUT_VALIDATE : String := "skip-output-validate"
def FLAG_PERMISSIVE_SCHEMA : String := "permissive-schema"

/-- `flag.trim().to_ascii_lowercase()`; Lean's `Char.toLower` lowercases
exactly the ASCII range `A–Z`, matching `to_ascii_lowercase`. -/
def normalizeFlag (flag : String) : String := flag.trim.map Char.toLower

/-- `validation_options_from_flags`. -/
def validationOptionsFromFlags (flags : List String) : ExecutionValidationOptions :=
  flags.foldl
    (fun options flag =>
      let f := normalizeFlag flag
      if f = FLAG_SKIP_OUTPUT_VALIDATE then { options with validate_output := false }
      else if f = FLAG_PERMISSIVE_SCHEMA then { options with strict := false }
      else options)
    { validate_output := true, strict := true }

/-- A describe payload whose `operations` array names two operations,
`"a"` first and `"b"` second. -/
def payloadTwoOps : Json :=
  Json.obj [("operations", Json.arr
    [Json.obj [("name", Json.str "a")], Json.obj [("name", Json.str "b")]])]

/-- A two-row registry used to witness the resolution cases. -/
def sampleRegistry : OperatorRegistry Nat where
  perProviderId := fun s =>
    if s = "p" then some (fun o => if o = "op" then some 1 else none) else none
  perProviderType := fun s =>
    if s = "t" then some (fun o => if o = "op" then some 2 else none) else none

/-! ## Association lists and deque primitives

`HashMap` becomes an association list with one binding per key (every state
reachable from the empty cache keeps keys unique); `VecDeque` becomes a list
whose head is the deque front. -/

def assocLookup {A : Type} : List (String × A) → String → Option A
  | [], _ => none
  | (k, v) :: rest, key => if k = key then some v else assocLookup rest key

/-- `HashMap::remove` (drops the binding of `key`). -/
def assocErase {A : Type} (l : List (String × A)) (key : String) : List (String × A) :=
  l.filter (fun p => p.1 != key)

/-- In-place mutation of the binding of `key` (`get_mut`). -/
def assocUpdate {A : Type} (l : List (String × A)) (key : String) (v : A) :
    List (String × A) :=
  l.map (fun p => if p.1 = key then (p.1, v) else p)

/-- `VecDeque::pop_back`. -/
def popBack {A : Type} (l : List A) : Option (List A × A) :=
  match l.reverse with
  | [] => none
  | x :: rest => some (rest.reverse, x)

/-- `touch_lru`: move `key` to the front if present. -/
def touchLru (lru : List String) (key : String) : List String :=
  if lru.contains key then key :: lru.erase key else lru

/-! ## Memory cache (`cache/memory.rs`) -/

structure CacheEntry (V : Type) where
  component : V
  bytes_estimate : Nat
  hit_count : Nat
  pinned : Bool
deriving DecidableEq

structure MemoryState (V : Type) where
  entries : List (String × CacheEntry V)
  lru : List String
  total_bytes : Nat
  hits : Nat
  misses : Nat
  evictions : Nat
deriving DecidableEq

def initialMemoryState (V : Type) : MemoryState V :=
  { entries := [], lru := [], total_bytes := 0, hits := 0, misses := 0, evictions := 0 }

structure MemoryStats where
  hits : Nat
  misses : Nat
  evictions : Nat
  entries : Nat
  total_bytes : Nat
deriving DecidableEq

/-- `MemoryCache::stats`. -/
def memoryStats {V : Type} (s : MemoryState V) : MemoryStats :=
  { hits := s.hits, misses := s.misses, evictions := s.evictions,
    entries := s.entries.length, total_bytes := s.total_bytes }

/-- `should_skip_candidate`. -/
def shouldSkipCandidate {V : Type} (entries : List (String × CacheEntry V))
    (key : String) (protectLfu : Bool) (lfuThreshold : Nat) : Bool :=
  match assocLookup entries key with
  | none => false
  | some entry =>
    entry.pinned ||
      (protectLfu && decide (0 < lfuThreshold) && decide (lfuThreshold ≤ entry.hit_count))

/-- One eviction pass of `evict_if_needed`; `fuel` is the `attempts` counter
(initialized to the LRU length by the caller). Returns the new state and
whether any eviction happened in this pass (`evicted_any`). -/
def evictPass {V : Type} (maxBytes lfuProtectHits : Nat) (protectLfu : Bool) :
    Nat → MemoryState V → MemoryState V × Bool
  | 0, s => (s, false)
  | fuel + 1, s =>
    if s.total_bytes ≤ maxBytes then (s, false)
    else
      match popBack s.lru with
      | none => (s, false)
      | some (rest, candidate) =>
        if shouldSkipCandidate s.entries candidate protectLfu lfuProtectHits then
          evictPass maxBytes lfuProtectHits protectLfu fuel
            { s with lru := candidate :: rest }
        else
          match assocLookup s.entries candidate with
          | some entry =>
            let r := evictPass maxBytes lfuProtectHits protectLfu fuel
              { s with entries := assocErase s.entries candidate,
                       lru := rest,
                       total_bytes := s.total_bytes - entry.bytes_estimate,
                       evictions := satAdd s.evictions 1 }
            (r.1, true)
          | none =>
            evictPass maxBytes lfuProtectHits protectLfu fuel { s with lru := rest }

/-- `MemoryCache::evict_if_needed`: protected pass, then the pressure pass
only when still over budget and the protected pass evicted something. -/
def evictIfNeeded {V : Type} (maxBytes lfuProtectHits : Nat) (s : MemoryState V) :
    MemoryState V :=
  if maxBytes = 0 then s
  else
    let r1 := evictPass maxBytes lfuProtectHits true s.lru.length s
    if r1.1.total_bytes ≤ maxBytes || !r1.2 then r1.1
    else (evictPass maxBytes lfuProtectHits false r1.1.lru.length r1.1).1

/-- `MemoryCache::insert`. -/
def memoryInsert {V : Type} (maxBytes lfuProtectHits : Nat) (s : MemoryState V)
    (key : String) (value : V) (bytesEstimate : Nat) (pinned : Bool) : MemoryState V :=
  let s :=
    match assocLookup s.entries key with
    | some existing =>
      { s with entries := assocErase s.entries key,
               total_bytes := s.total_bytes - existing.bytes_estimate,
               lru := s.lru.erase key }
    | none => s
  let s :=
    { s with entries := (key, { component := value, bytes_estimate := bytesEstimate,
                                hit_count := 0, pinned := pinned }) :: s.entries,
             total_bytes := satAdd s.total_bytes bytesEstimate,
             lru := key :: s.lru }
  evictIfNeeded maxBytes lfuProtectHits s

/-- `MemoryCache::get` (state change plus returned component). -/
def memoryGet {V : Type} (s : MemoryState V) (key : String) :
    MemoryState V × Option V :=
  match assocLookup s.entries key with
  | some entry =>
    ({ s with hits := satAdd s.hits 1,
              entries := assocUpdate s.entries key
                { entry with hit_count := satAdd entry.hit_count 1 },
              lru := touchLru s.lru key },
     some entry.component)
  | none => ({ s with misses := satAdd s.misses 1 }, none)

inductive MemOp (V : Type) where
  | insert (key : String) (value : V) (bytesEstimate : Nat) (pinned : Bool) : MemOp V
  | get (key : String) : MemOp V

def memoryStep {V : Type} (maxBytes lfuProtectHits : Nat) (s : MemoryState V) :
    MemOp V → MemoryState V
  | MemOp.insert key value bytesEstimate pinned =>
    memoryInsert maxBytes lfuProtectHits s key value bytesEstimate pinned
  | MemOp.get key => (memoryGet s key).1

/-- A finite sequence of cache operations applied to the fresh cache. -/
def runMemoryOps {V : Type} (maxBytes lfuProtectHits : Nat) (ops : List (MemOp V)) :
    MemoryState V :=
  ops.foldl (memoryStep maxBytes lfuProtectHits) (initialMemoryState V)

/-- Invariant carried across memory-cache operations: the LRU covers the
resident keys, keys are unique, hit counters stay in `u64` range, and the
cache is at or under budget unless every resident entry is pinned or
LFU-shielded. -/
def MemInv {V : Type} (maxBytes lfu : Nat) (s : MemoryState V) : Prop :=
  (∀ p ∈ s.entries, p.1 ∈ s.lru) ∧
  (s.entries.map Prod.fst).Nodup ∧
  (∀ p ∈ s.entries, p.2.hit_count ≤ U64MAX) ∧
  (s.total_bytes ≤ maxBytes ∨
    ∀ p ∈ s.entries, p.2.pinned = true ∨ (0 < lfu ∧ lfu ≤ p.2.hit_count))

/-- The operation sequence of the C2 counterexample: an unpinned entry that
has been hit once (LFU-protected at threshold 1) followed by a pinned insert
that pushes the cache over a 10-byte budget. -/
def memOpsLfuPinned : List (MemOp Unit) :=
  [MemOp.insert "a" () 6 false, MemOp.get "a", MemOp.insert "b" () 6 true]

/-! ## Contract cache (`runner/contract_cache.rs`) -/

structure ContractSnapshot where
  resolved_digest : String
  component_id : String
  operation_id : String
  validate_output : Bool
  strict : Bool
  describe_hash : Option String
  schema_hash : Option String
deriving DecidableEq

/-- `ContractSnapshot::estimated_bytes` (`String::len` is the UTF-8 byte
count, i.e. `String.utf8ByteSize`). -/
def ContractSnapshot.estimatedBytes (s : ContractSnapshot) : Nat :=
  let bytes := (128 : Nat)
  let bytes := satAdd bytes s.resolved_digest.utf8ByteSize
  let bytes := satAdd bytes s.component_id.utf8ByteSize
  let bytes := satAdd bytes s.operation_id.utf8ByteSize
  let bytes :=
    match s.describe_hash with
    | some value => satAdd bytes value.utf8ByteSize
    | none => bytes
  match s.schema_hash with
  | some value => satAdd bytes value.utf8ByteSize
  | none => bytes

structure ContractCacheEntry where
  snapshot : ContractSnapshot
  bytes_estimate : Nat
deriving DecidableEq

structure ContractCacheState where
  entries : List (String × ContractCacheEntry)
  lru : List String
  total_bytes : Nat
  hits : Nat
  misses : Nat
  evictions : Nat
deriving DecidableEq

def initialContractState : ContractCacheState :=
  { entries := [], lru := [], total_bytes := 0, hits := 0, misses := 0, evictions := 0 }

structure ContractCacheStats where
  hits : Nat
  misses : Nat
  evictions : Nat
  entries : Nat
  total_bytes : Nat
deriving DecidableEq

/-- `ContractCache::stats`. -/
def contractStats (s : ContractCacheState) : ContractCacheStats :=
  { hits := s.hits, misses := s.misses, evictions := s.evictions,
    entries := s.entries.length, total_bytes := s.total_bytes }

theorem popBack_eq_some {A : Type} {l rest : List A} {x : A}
    (h : popBack l = some (rest, x)) : l = rest ++ [x] := by
  unfold popBack at h
  cases hrev : l.reverse with
  | nil => rw [hrev] at h; simp at h
  | cons y ys =>
    rw [hrev] at h
    simp at h
    obtain ⟨h1, h2⟩ := h
    have : l.reverse.reverse = (y :: ys).reverse := by rw [hrev]
    simpa [← h1, ← h2] using this

theorem popBack_length {A : Type} {l rest : List A} {x : A}
    (h : popBack l = some (rest, x)) : l.length = rest.length + 1 := by
  rw [popBack_eq_some h]; simp

/-- The `while` loop of `ContractCache::evict_if_needed` (no pinning, no LFU
protection): pop from the LRU back until at or under budget. -/
def contractEvictLoop (maxBytes : Nat) (s : ContractCacheState) : ContractCacheState :=
  if s.total_bytes ≤ maxBytes then s
  else
    match h : popBack s.lru with
    | none => s
    | some (rest, candidate) =>
      match assocLookup s.entries candidate with
      | some entry =>
        contractEvictLoop maxBytes
          { s with entries := assocErase s.entries candidate,
                   lru := rest,
                   total_bytes := s.total_bytes - entry.bytes_estimate,
                   evictions := satAdd s.evictions 1 }
      | none => contractEvictLoop maxBytes { s with lru := rest }
termination_by s.lru.length
decreasing_by
  all_goals
    have hlen := popBack_length h
    omega

/-- `ContractCache::evict_if_needed`. -/
def contractEvictIfNeeded (maxBytes : Nat) (s : ContractCacheState) :
    ContractCacheState :=
  if maxBytes = 0 then s else contractEvictLoop maxBytes s

/-- `ContractCache::insert`. -/
def contractInsert (maxBytes : Nat) (s : ContractCacheState) (key : String)
    (snapshot : ContractSnapshot) : ContractCacheState :=
  let s :=
    match assocLookup s.entries key with
    | some existing =>
      { s with entries := assocErase s.entries key,
               total_bytes := s.total_bytes - existing.bytes_estimate,
               lru := s.lru.erase key }
    | none => s
  let bytesEstimate := snapshot.estimatedBytes
  let s :=
    { s with entries := (key, { snapshot := snapshot, bytes_estimate := bytesEstimate })
               :: s.entries,
             total_bytes := satAdd s.total_bytes bytesEstimate,
             lru := key :: s.lru }
  contractEvictIfNeeded maxBytes s

/-- `ContractCache::get`. -/
def contractGet (s : ContractCacheState) (key : String) :
    ContractCacheState × Option ContractSnapshot :=
  match assocLookup s.entries key with
  | some entry =>
    ({ s with hits := satAdd s.hits 1, lru := touchLru s.lru key },
     some entry.snapshot)
  | none => ({ s with misses := satAdd s.misses 1 }, none)

inductive ContractOp where
  | insert (key : String) (snapshot : ContractSnapshot) : ContractOp
  | get (key : String) : ContractOp

def contractStep (maxBytes : Nat) (s : ContractCacheState) :
    ContractOp → ContractCacheState
  | ContractOp.insert key snapshot => contractInsert maxBytes s key snapshot
  | ContractOp.get key => (contractGet s key).1

def runContractOps (maxBytes : Nat) (ops : List ContractOp) : ContractCacheState :=
  ops.foldl (contractStep maxBytes) initialContractState

/-- Sum of the byte estimates of the resident contract-cache entries. -/
def sumEst (entries : List (String × ContractCacheEntry)) : Nat :=
  (entries.map (fun p => p.2.bytes_estimate)).sum

/-- Invariant carried across contract-cache operations (for a fixed positive
budget): LRU and entry keys coincide (each side covers the other), keys and
LRU are duplicate-free, `total_bytes` is exactly the sum of the resident
estimates, and the cache is at or under budget. -/
def ContractInv (maxBytes : Nat) (s : ContractCacheState) : Prop :=
  (∀ p ∈ s.entries, p.1 ∈ s.lru) ∧
  (s.entries.map Prod.fst).Nodup ∧
  s.lru.Nodup ∧
  (∀ k ∈ s.lru, (assocLookup s.entries k).isSome) ∧
  s.total_bytes = sumEst s.entries ∧
  s.total_bytes ≤ maxBytes

/-- Witness snapshots: one with empty strings (estimate 128) and one with
`"d"`, `"c"`, `"run"` (estimate 133). -/
def snapEmpty : ContractSnapshot :=
  { resolved_digest := "", component_id := "", operation_id := "",
    validate_output := true, strict := true, describe_hash := none,
    schema_hash := none }

def snapRun : ContractSnapshot :=
  { resolved_digest := "d", component_id := "c", operation_id := "run",
    validate_output := true, strict := true, describe_hash := none,
    schema_hash := none }

/-- Witness operation sequence: a small insert followed by an insert whose
estimate alone exceeds a 130-byte budget. -/
def contractOpsBig : List ContractOp :=
  [ContractOp.insert "a" snapEmpty, ContractOp.insert "b" snapRun]

/-! ## Disk cache (`cache/disk.rs`, `cache/metadata.rs`, `cache/keys.rs`) -/

structure EngineProfile where
  engine_profile_id : String
  wasmtime_version : String
  target_triple : String
  cpu_policy : String
  config_fingerprint : String
deriving DecidableEq

structure ArtifactMetadata where
  schema_version : Nat
  engine_profile_id : String
  wasmtime_version : String
  target_triple : String
  cpu_policy : String
  config_fingerprint : String
  wasm_digest : String
  artifact_bytes : Nat
  created_at : String
  last_access_at : String
  hit_count : Nat
deriving DecidableEq

structure ArtifactKey where
  engine_profile_id : String
  wasm_digest : String
deriving DecidableEq

/-- `ArtifactMetadata::validate_for_profile` (true = `Ok(())`). -/
def ArtifactMetadata.validateForProfile (m : ArtifactMetadata) (p : EngineProfile) : Bool :=
  m.schema_version == 1 && m.engine_profile_id == p.engine_profile_id &&
  m.wasmtime_version == p.wasmtime_version && m.target_triple == p.target_triple &&
  m.cpu_policy == p.cpu_policy && m.config_fingerprint == p.config_fingerprint

/-- `ArtifactMetadata::touch` (`now` stands for `Utc::now().to_rfc3339()`). -/
def ArtifactMetadata.touch (m : ArtifactMetadata) (now : String) : ArtifactMetadata :=
  { m with last_access_at := now, hit_count := satAdd m.hit_count 1 }

/-- `digest_to_filename`: `digest.replace(':', "_")` replaces every `':'`
character by `'_'`, i.e. a character-wise map. -/
def digestToFilename (digest : String) : String :=
  String.mk (digest.data.map (fun c => if c = ':' then '_' else c))

/-- The pair of on-disk files of one cache entry: the `.cwasm` artifact (its
bytes) and the `.json` sidecar (`some none` = file present but unreadable or
unparsable, `some (some m)` = parses to `m`). -/
structure DiskEntryFiles where
  artifact : Option (List Nat)
  meta : Option (Option ArtifactMetadata)

/-- The artifacts directory, addressed by file stem. -/
def updateFs (fs : String → DiskEntryFiles) (stem : String) (files : DiskEntryFiles) :
    String → DiskEntryFiles :=
  fun k => if k = stem then files else fs k

/-- `delete_entry`: best-effort removal of both files. -/
def deleteEntry (fs : String → DiskEntryFiles) (stem : String) :
    String → DiskEntryFiles :=
  updateFs fs stem { artifact := none, meta := none }

/-- `DiskCache::write_atomic`: validate metadata against the engine profile,
check the digest, then write both files (the tmp-file/rename dance is
atomic replacement of the pair). -/
def writeAtomic (profile : EngineProfile) (fs : String → DiskEntryFiles)
    (key : ArtifactKey) (bytes : List Nat) (meta : ArtifactMetadata) :
    Except String (String → DiskEntryFiles) :=
  if ¬ meta.validateForProfile profile then
    Except.error "cache metadata does not match engine profile"
  else if meta.wasm_digest ≠ key.wasm_digest then
    Except.error "cache metadata digest does not match artifact key"
  else if key.engine_profile_id ≠ profile.engine_profile_id then
    Except.error "artifact key engine_profile_id mismatch"
  else
    Except.ok (updateFs fs (digestToFilename key.wasm_digest)
      { artifact := some bytes, meta := some (some meta) })

/-- `DiskCache::try_read`: returns the updated directory and the artifact
bytes; every integrity failure deletes the entry and yields `none`. -/
def tryRead (profile : EngineProfile) (now : String) (fs : String → DiskEntryFiles)
    (key : ArtifactKey) :
    Except String ((String → DiskEntryFiles) × Option (List Nat)) :=
  if key.engine_profile_id ≠ profile.engine_profile_id then
    Except.error "artifact key engine_profile_id mismatch"
  else
    let stem := digestToFilename key.wasm_digest
    let files := fs stem
    match files.meta with
    | none =>
      Except.ok (updateFs fs stem { artifact := none, meta := none }, none)
    | some metaRaw =>
      match metaRaw with
      | none => Except.ok (deleteEntry fs stem, none)
      | some meta =>
        if ¬ meta.validateForProfile profile then
          Except.ok (deleteEntry fs stem, none)
        else if meta.wasm_digest ≠ key.wasm_digest then
          Except.ok (deleteEntry fs stem, none)
        else
          match files.artifact with
          | none => Except.ok (deleteEntry fs stem, none)
          | some artifactBytes =>
            if meta.artifact_bytes ≠ artifactBytes.length then
              Except.ok (deleteEntry fs stem, none)
            else
              Except.ok (updateFs fs stem
                { artifact := some artifactBytes,
                  meta := some (some (meta.touch now)) }, some artifactBytes)

/-- Witness engine profile, key, metadata and bytes for the roundtrip. -/
def profileW : EngineProfile :=
  { engine_profile_id := "p", wasmtime_version := "w", target_triple := "t",
    cpu_policy := "c", config_fingerprint := "f" }

def keyW : ArtifactKey := { engine_profile_id := "p", wasm_digest := "sha256:x" }

/-- Metadata accepted by `write_atomic` whose `artifact_bytes` field (5) does
not match the written byte string (length 3). -/
def metaBadLen : ArtifactMetadata :=
  { schema_version := 1, engine_profile_id := "p", wasmtime_version := "w",
    target_triple := "t", cpu_policy := "c", config_fingerprint := "f",
    wasm_digest := "sha256:x", artifact_bytes := 5, created_at := "e",
    last_access_at := "e", hit_count := 0 }

def emptyFs : String → DiskEntryFiles := fun _ => { artifact := none, meta := none }

/-- The directory after the mismatched write (total function on stems). -/
def fsBadLen : String → DiskEntryFiles :=
  updateFs emptyFs (digestToFilename keyW.wasm_digest)
    { artifact := some [1, 2, 3], meta := some (some metaBadLen) }

/-- Metadata like `metaBadLen` but with `artifact_bytes` matching the
written bytes. -/
def metaOkLen : ArtifactMetadata :=
  { schema_version := 1, engine_profile_id := "p", wasmtime_version := "w",
    target_triple := "t", cpu_policy := "c", config_fingerprint := "f",
    wasm_digest := "sha256:x", artifact_bytes := 3, created_at := "e",
    last_access_at := "e", hit_count := 0 }

/-- The directory after a well-formed write of `[1, 2, 3]`. -/
def fsOkLen : String → DiskEntryFiles :=
  updateFs emptyFs (digestToFilename keyW.wasm_digest)
    { artifact := some [1, 2, 3], meta := some (some metaOkLen) }

/-! ## Disk prune (`DiskCache::prune_to_limit`, `approx_size_bytes`) -/

/-- One directory entry of the artifacts dir as seen by `read_dir`. -/
inductive FsNode where
  | cwasm (stem : String) (size : Nat) : FsNode
  | jsonMeta (stem : String) (parse : Option ArtifactMetadata) : FsNode
  | other (name : String) : FsNode
deriving DecidableEq

/-- `DiskCache::approx_size_bytes`: saturating sum of every `.cwasm` size. -/
def approxSizeBytes (dir : List FsNode) : Nat :=
  dir.foldl
    (fun total node =>
      match node with
      | FsNode.cwasm _ size => satAdd total size
      | _ => total) 0

/-- `fs::metadata(path.with_extension("cwasm")).map(len)`: size of the
`.cwasm` file with the given stem. -/
def findCwasmSize (dir : List FsNode) (stem : String) : Option Nat :=
  match dir with
  | [] => none
  | FsNode.cwasm s size :: rest =>
    if s = stem then some size else findCwasmSize rest stem
  | _ :: rest => findCwasmSize rest stem

/-- `ArtifactMetadata::last_access_time`: parse `last_access_at`, falling
back to `created_at` (`parseTs` stands for the RFC 3339 parser, yielding the
Unix timestamp). -/
def lastAccessTime (parseTs : String → Option Int) (m : ArtifactMetadata) : Option Int :=
  match parseTs m.last_access_at with
  | some t => some t
  | none => parseTs m.created_at

structure PruneEntry where
  access : Option Int
  stem : String
  size : Nat
deriving DecidableEq

/-- The enumeration pass of `prune_to_limit`: one entry per parseable `.json`
sidecar, with the size of the paired `.cwasm` file (0 when absent). -/
def pruneEnumerate (parseTs : String → Option Int) (dir : List FsNode) :
    List PruneEntry :=
  dir.filterMap
    (fun node =>
      match node with
      | FsNode.jsonMeta stem (some meta) =>
        some { access := lastAccessTime parseTs meta, stem := stem,
               size := (findCwasmSize dir stem).getD 0 }
      | _ => none)

/-- `total_bytes` accumulated during enumeration (`saturating_add`). -/
def totalEnumerated (entries : List PruneEntry) : Nat :=
  entries.foldl (fun t e => satAdd t e.size) 0

def I64MIN : Int := -(2 ^ 63)

/-- `sort_by_key`: `last_access_at` ascending, absent treated as `i64::MIN`. -/
def pruneSortKey (e : PruneEntry) : Int :=
  match e.access with
  | some ts => ts
  | none => I64MIN

def pruneSort (entries : List PruneEntry) : List PruneEntry :=
  entries.insertionSort (fun a b => pruneSortKey a ≤ pruneSortKey b)

/-- Removal of the `.cwasm`/`.json` pair with the given stem. -/
def removeEntryFiles (dir : List FsNode) (stem : String) : List FsNode :=
  dir.filter
    (fun node =>
      match node with
      | FsNode.cwasm s _ => s != stem
      | FsNode.jsonMeta s _ => s != stem
      | FsNode.other _ => true)

structure PruneReport where
  removed_entries : Nat
  removed_bytes : Nat
deriving DecidableEq

/-- The removal loop of `prune_to_limit`: walk the sorted entries, stop once
at or under the limit, otherwise remove the pair and subtract its size. -/
def pruneLoop (limit : Nat) (dryRun : Bool) :
    List PruneEntry → Nat → Nat → Nat → List FsNode →
    PruneReport × Nat × List FsNode
  | [], re, rb, remaining, dir =>
    ({ removed_entries := re, removed_bytes := rb }, remaining, dir)
  | e :: rest, re, rb, remaining, dir =>
    if remaining ≤ limit then
      ({ removed_entries := re, removed_bytes := rb }, remaining, dir)
    else
      pruneLoop limit dryRun rest (satAdd re 1) (satAdd rb e.size)
        (remaining - e.size) (if dryRun then dir else removeEntryFiles dir e.stem)

/-- `DiskCache::prune_to_limit`: report plus the resulting directory. -/
def pruneToLimit (parseTs : String → Option Int) (diskMaxBytes : Option Nat)
    (dryRun : Bool) (dir : List FsNode) : PruneReport × List FsNode :=
  match diskMaxBytes with
  | none => ({ removed_entries := 0, removed_bytes := 0 }, dir)
  | some limit =>
    let entries := pruneSort (pruneEnumerate parseTs dir)
    let total := totalEnumerated (pruneEnumerate parseTs dir)
    let r := pruneLoop limit dryRun entries 0 0 total dir
    (r.1, r.2.2)

/-- Stems of all `.json` sidecars in the directory. -/
def jsonStems (dir : List FsNode) : List String :=
  dir.filterMap
    (fun node =>
      match node with
      | FsNode.jsonMeta stem _ => some stem
      | _ => none)

/-- `(stem, size)` contributions of the artifacts that have a parseable
sidecar, with `ctx` the directory used to resolve `.cwasm` sizes. -/
def pairedAux (ctx : List FsNode) (l : List FsNode) : List (String × Nat) :=
  l.filterMap
    (fun node =>
      match node with
      | FsNode.jsonMeta stem (some _) =>
        some (stem, (findCwasmSize ctx stem).getD 0)
      | _ => none)

def pairedContribList (dir : List FsNode) : List (String × Nat) :=
  pairedAux dir dir

/-- Total size of the `.cwasm` artifacts that have a parseable sidecar. -/
def pairedSizeBytes (dir : List FsNode) : Nat :=
  ((pairedContribList dir).map Prod.snd).sum

/-- Sidecar metadata with a resolvable access timestamp `"t1"`. -/
def metaTs : ArtifactMetadata :=
  { schema_version := 1, engine_profile_id := "p", wasmtime_version := "w",
    target_triple := "t", cpu_policy := "c", config_fingerprint := "f",
    wasm_digest := "sha256:a", artifact_bytes := 6, created_at := "t1",
    last_access_at := "t1", hit_count := 0 }

/-- Timestamp parser for the witness directory. -/
def parseTsW : String → Option Int := fun s => if s = "t1" then some 1 else none

/-- The C4 counterexample directory: a well-formed 6-byte entry (sidecar
with resolvable timestamp plus `.cwasm`) next to an orphan `.cwasm` of 20
bytes without any sidecar. -/
def dirOrphanPlus : List FsNode :=
  [FsNode.jsonMeta "a" (some metaTs), FsNode.cwasm "a" 6,
   FsNode.cwasm "orphan" 20]

/-! ## Supporting lemmas -/

theorem satAdd_le_max (a b : Nat) : satAdd a b ≤ U64MAX :=
  Nat.min_le_right _ _

theorem le_satAdd_one {a : Nat} (h : a ≤ U64MAX) : a ≤ satAdd a 1 := by
  unfold satAdd
  rcases Nat.lt_or_ge (a + 1) U64MAX with h1 | h1
  · omega
  · omega

theorem popBack_eq_none {A : Type} {l : List A} (h : popBack l = none) : l = [] := by
  unfold popBack at h
  cases hrev : l.reverse with
  | nil => exact List.reverse_eq_nil_iff.mp hrev
  | cons y ys => rw [hrev] at h; simp at h

theorem assocLookup_erase_ne {A : Type} (l : List (String × A)) (key k : String)
    (h : k ≠ key) : assocLookup (assocErase l key) k = assocLookup l k := by
  induction l with
  | nil => rfl
  | cons p rest ih =>
    by_cases hk : p.1 = key
    · have hb : (p.1 != key) = false := by simp [hk]
      have hne : ¬ p.1 = k := by rw [hk]; exact fun hh => h hh.symm
      simp [assocErase, List.filter_cons, hb, assocLookup, hne] at ih ⊢
      exact ih
    · have hb : (p.1 != key) = true := by simp [hk]
      simp only [assocErase, List.filter_cons, hb, if_true] at ih ⊢
      by_cases hpk : p.1 = k
      · simp [assocLookup, hpk]
      · simp only [assocLookup, hpk, if_false, if_neg hpk]
        exact ih

theorem assocLookup_erase_self {A : Type} (l : List (String × A)) (key : String) :
    assocLookup (assocErase l key) key = none := by
  induction l with
  | nil => rfl
  | cons p rest ih =>
    by_cases hk : p.1 = key
    · have hb : (p.1 != key) = false := by simp [hk]
      simpa [assocErase, List.filter_cons, hb] using ih
    · have hb : (p.1 != key) = true := by simp [hk]
      simpa [assocErase, List.filter_cons, hb, assocLookup, hk] using ih

theorem assocLookup_mem {A : Type} {l : List (String × A)} {key : String} {v : A}
    (h : assocLookup l key = some v) : (key, v) ∈ l := by
  induction l with
  | nil => simp [assocLookup] at h
  | cons p rest ih =>
    by_cases hk : p.1 = key
    · simp only [assocLookup, hk, if_pos] at h
      have : v = p.2 := by injection h with h'; exact h'.symm
      subst this
      rw [← hk]
      exact List.mem_cons_self _ _
    · simp only [assocLookup, hk, if_false, if_neg hk] at h
      exact List.mem_cons_of_mem _ (ih h)

theorem mem_lookup_isSome {A : Type} {l : List (String × A)} {p : String × A}
    (h : p ∈ l) : (assocLookup l p.1).isSome := by
  induction l with
  | nil => simp at h
  | cons q rest ih =>
    rcases List.mem_cons.mp h with h | h
    · subst h; simp [assocLookup]
    · by_cases hq : q.1 = p.1
      · simp [assocLookup, hq]
      · simp only [assocLookup, hq, if_false, if_neg hq]
        exact ih h

theorem assocLookup_nodup_mem {A : Type} {l : List (String × A)}
    (hnd : (l.map Prod.fst).Nodup) {p : String × A} (h : p ∈ l) :
    assocLookup l p.1 = some p.2 := by
  induction l with
  | nil => simp at h
  | cons q rest ih =>
    have hnd' : (rest.map Prod.fst).Nodup := (List.nodup_cons.mp hnd).2
    have hq : q.1 ∉ rest.map Prod.fst := (List.nodup_cons.mp hnd).1
    rcases List.mem_cons.mp h with h | h
    · subst h; simp [assocLookup]
    · by_cases hqp : q.1 = p.1
      · exact absurd (hqp ▸ List.mem_map_of_mem Prod.fst h) hq
      · simp only [assocLookup, hqp, if_false, if_neg hqp]
        exact ih hnd' h

theorem mem_assocErase {A : Type} {l : List (String × A)} {key : String}
    {p : String × A} : p ∈ assocErase l key ↔ p ∈ l ∧ p.1 ≠ key := by
  simp [assocErase, List.mem_filter]

theorem assocErase_nodup {A : Type} {l : List (String × A)} (key : String)
    (hnd : (l.map Prod.fst).Nodup) :
    ((assocErase l key).map Prod.fst).Nodup :=
  ((List.filter_sublist l).map Prod.fst).nodup hnd

theorem not_mem_map_fst_assocErase {A : Type} (l : List (String × A)) (key : String) :
    key ∉ (assocErase l key).map Prod.fst := by
  intro h
  rcases List.mem_map.mp h with ⟨p, hp, hfst⟩
  exact (mem_assocErase.mp hp).2 hfst

theorem assocUpdate_map_fst {A : Type} (l : List (String × A)) (key : String) (v : A) :
    (assocUpdate l key v).map Prod.fst = l.map Prod.fst := by
  induction l with
  | nil => rfl
  | cons p rest ih =>
    by_cases hk : p.1 = key
    · simp [assocUpdate, hk, List.map_cons] at ih ⊢
      exact ih
    · simp [assocUpdate, hk, List.map_cons] at ih ⊢
      exact ih

theorem mem_assocUpdate {A : Type} {l : List (String × A)} {key : String} {v : A}
    {q : String × A} (h : q ∈ assocUpdate l key v) : q ∈ l ∨ q = (key, v) := by
  rcases List.mem_map.mp h with ⟨p, hp, heq⟩
  by_cases hk : p.1 = key
  · right; rw [← heq]; simp [hk]
  · left; rw [← heq]; simpa [hk] using hp

theorem dropWhile_append_single {α : Type} (f : α → Bool) (l : List α) (a : α) :
    List.dropWhile f (l ++ [a]) =
      if (List.dropWhile f l).isEmpty then List.dropWhile f [a]
      else List.dropWhile f l ++ [a] := by
  induction l with
  | nil => simp
  | cons b m ih =>
    by_cases hb : f b
    · simpa [List.dropWhile_cons, hb] using ih
    · simp [List.dropWhile_cons, hb]

theorem shouldSkip_lookup_some {V : Type} {entries : List (String × CacheEntry V)}
    {k : String} {e : CacheEntry V} (h : assocLookup entries k = some e)
    (protect : Bool) (lfu : Nat) :
    shouldSkipCandidate entries k protect lfu =
      (e.pinned || (protect && decide (0 < lfu) && decide (lfu ≤ e.hit_count))) := by
  unfold shouldSkipCandidate
  rw [h]

theorem shouldSkip_lookup_none {V : Type} {entries : List (String × CacheEntry V)}
    {k : String} (h : assocLookup entries k = none) (protect : Bool) (lfu : Nat) :
    shouldSkipCandidate entries k protect lfu = false := by
  unfold shouldSkipCandidate
  rw [h]

theorem shouldSkip_erase_eq {V : Type} (entries : List (String × CacheEntry V))
    (cand : String) (protect : Bool) (lfu : Nat)
    (h : shouldSkipCandidate entries cand protect lfu = false) :
    (fun k => shouldSkipCandidate (assocErase entries cand) k protect lfu) =
      (fun k => shouldSkipCandidate entries k protect lfu) := by
  funext k
  by_cases hk : k = cand
  · subst hk
    rw [shouldSkip_lookup_none (assocLookup_erase_self entries k) protect lfu, h]
  · unfold shouldSkipCandidate
    rw [assocLookup_erase_ne entries cand k hk]

theorem findSome?_append_first {α β : Type} (f : α → Option β) :
    ∀ (pre : List α) (e : α) (post : List α) (n : β),
      (∀ x ∈ pre, f x = none) → f e = some n →
      (pre ++ e :: post).findSome? f = some n := by
  intro pre
  induction pre with
  | nil =>
    intro e post n _ he
    simp [List.findSome?_cons, he]
  | cons a l ih =>
    intro e post n hpre he
    have ha : f a = none := hpre a (by simp)
    have hl : ∀ x ∈ l, f x = none := fun x hx => hpre x (by simp [hx])
    simp [List.findSome?_cons, ha, ih e post n hl he]

/-- Behaviour of one eviction pass: entries only disappear, the LRU keeps
covering the resident keys, key uniqueness is kept, and afterwards either the
cache is at or under budget or every remaining entry is protected by the
pass's skip rule (pinned, or LFU-shielded when the pass protects LFU). -/
theorem evictPass_spec {V : Type} (maxBytes lfu : Nat) (protect : Bool) :
    ∀ (fuel : Nat) (s : MemoryState V),
      (∀ p ∈ s.entries, p.1 ∈ s.lru) →
      (s.entries.map Prod.fst).Nodup →
      (s.lru.dropWhile (fun k => shouldSkipCandidate s.entries k protect lfu)).length ≤ fuel →
      (∀ p ∈ (evictPass maxBytes lfu protect fuel s).1.entries, p ∈ s.entries) ∧
      (∀ p ∈ (evictPass maxBytes lfu protect fuel s).1.entries,
          p.1 ∈ (evictPass maxBytes lfu protect fuel s).1.lru) ∧
      ((evictPass maxBytes lfu protect fuel s).1.entries.map Prod.fst).Nodup ∧
      ((evictPass maxBytes lfu protect fuel s).1.total_bytes ≤ maxBytes ∨
        ∀ p ∈ (evictPass maxBytes lfu protect fuel s).1.entries,
          p.2.pinned = true ∨ (protect = true ∧ 0 < lfu ∧ lfu ≤ p.2.hit_count)) := by
  intro fuel
  induction fuel with
  | zero =>
    intro s hsub hnd hdw
    simp only [evictPass]
    refine ⟨fun p hp => hp, hsub, hnd, Or.inr ?_⟩
    intro p hp
    have hk : p.1 ∈ s.lru := hsub p hp
    have hnil : s.lru.dropWhile (fun k => shouldSkipCandidate s.entries k protect lfu) = [] :=
      List.length_eq_zero.mp (Nat.le_zero.mp hdw)
    have hskip := List.dropWhile_eq_nil_iff.mp hnil p.1 hk
    rw [shouldSkip_lookup_some (assocLookup_nodup_mem hnd hp) protect lfu] at hskip
    simp only [Bool.or_eq_true, Bool.and_eq_true, decide_eq_true_eq] at hskip
    rcases hskip with h | ⟨⟨h1, h2⟩, h3⟩
    · exact Or.inl h
    · exact Or.inr ⟨h1, h2, h3⟩
  | succ fuel ih =>
    intro s hsub hnd hdw
    by_cases htot : s.total_bytes ≤ maxBytes
    · simp only [evictPass, if_pos htot]
      exact ⟨fun p hp => hp, hsub, hnd, Or.inl htot⟩
    · cases hpop : popBack s.lru with
      | none =>
        have hnil : s.lru = [] := popBack_eq_none hpop
        simp only [evictPass, if_neg htot, hpop]
        refine ⟨fun p hp => hp, hsub, hnd, Or.inr ?_⟩
        intro p hp
        exact absurd (hsub p hp) (by simp [hnil])
      | some pr =>
        obtain ⟨rest, candidate⟩ := pr
        have hlru : s.lru = rest ++ [candidate] := popBack_eq_some hpop
        by_cases hskip : shouldSkipCandidate s.entries candidate protect lfu = true
        · -- skip: recycle the candidate to the LRU front
          have hsub' : ∀ p ∈ s.entries, p.1 ∈ candidate :: rest := by
            intro p hp
            have hm := hsub p hp
            rw [hlru] at hm
            rcases List.mem_append.mp hm with h | h
            · exact List.mem_cons_of_mem _ h
            · simp at h; simp [h]
          have hdw' :
              ((candidate :: rest).dropWhile
                (fun k => shouldSkipCandidate s.entries k protect lfu)).length ≤ fuel := by
            simp only [List.dropWhile_cons, hskip, if_true]
            rw [hlru, dropWhile_append_single] at hdw
            by_cases he :
                (rest.dropWhile (fun k => shouldSkipCandidate s.entries k protect lfu)).isEmpty
            · rw [List.isEmpty_iff] at he
              rw [he]
              exact Nat.zero_le _
            · rw [if_neg he] at hdw
              simp only [List.length_append, List.length_cons, List.length_nil] at hdw
              omega
          have hres := ih { s with lru := candidate :: rest } hsub' hnd hdw'
          simp only [evictPass, if_neg htot, hpop, if_pos hskip]
          exact hres
        · have hskipf : shouldSkipCandidate s.entries candidate protect lfu = false :=
            Bool.not_eq_true _ ▸ Bool.of_not_eq_true hskip
          cases hlook : assocLookup s.entries candidate with
          | some entry =>
            -- evict the candidate
            have hsub' : ∀ p ∈ assocErase s.entries candidate, p.1 ∈ rest := by
              intro p hp
              rcases mem_assocErase.mp hp with ⟨hpm, hpne⟩
              have hm := hsub p hpm
              rw [hlru] at hm
              rcases List.mem_append.mp hm with h | h
              · exact h
              · simp at h; exact absurd h hpne
            have hnd' := assocErase_nodup (l := s.entries) candidate hnd
            have hdw' :
                (rest.dropWhile
                  (fun k => shouldSkipCandidate (assocErase s.entries candidate) k
                    protect lfu)).length ≤ fuel := by
              rw [shouldSkip_erase_eq s.entries candidate protect lfu hskipf]
              rw [hlru, dropWhile_append_single] at hdw
              by_cases he :
                  (rest.dropWhile
                    (fun k => shouldSkipCandidate s.entries k protect lfu)).isEmpty
              · rw [List.isEmpty_iff] at he
                rw [he]
                exact Nat.zero_le _
              · rw [if_neg he] at hdw
                simp only [List.length_append, List.length_cons, List.length_nil] at hdw
                omega
            have hres := ih
              { s with entries := assocErase s.entries candidate,
                       lru := rest,
                       total_bytes := s.total_bytes - entry.bytes_estimate,
                       evictions := satAdd s.evictions 1 } hsub' hnd' hdw'
            simp only [evictPass, if_neg htot, hpop, if_neg hskip, hlook]
            refine ⟨?_, hres.2.1, hres.2.2.1, hres.2.2.2⟩
            intro p hp
            exact (mem_assocErase.mp (hres.1 p hp)).1
          | none =>
            -- stale LRU entry: drop it
            have hsub' : ∀ p ∈ s.entries, p.1 ∈ rest := by
              intro p hp
              have hm := hsub p hp
              rw [hlru] at hm
              rcases List.mem_append.mp hm with h | h
              · exact h
              · simp at h
                subst h
                have := mem_lookup_isSome hp
                rw [hlook] at this
                simp at this
            have hdw' :
                (rest.dropWhile
                  (fun k => shouldSkipCandidate s.entries k protect lfu)).length ≤ fuel := by
              rw [hlru, dropWhile_append_single] at hdw
              by_cases he :
                  (rest.dropWhile
                    (fun k => shouldSkipCandidate s.entries k protect lfu)).isEmpty
              · rw [List.isEmpty_iff] at he
                rw [he]
                exact Nat.zero_le _
              · rw [if_neg he] at hdw
                simp only [List.length_append, List.length_cons, List.length_nil] at hdw
                omega
            have hres := ih { s with lru := rest } hsub' hnd hdw'
            simp only [evictPass, if_neg htot, hpop, if_neg hskip, hlook]
            exact hres

theorem mem_touchLru {lru : List String} {x : String} (key : String) (h : x ∈ lru) :
    x ∈ touchLru lru key := by
  unfold touchLru
  by_cases hc : lru.contains key
  · rw [if_pos hc]
    by_cases hx : x = key
    · subst hx; exact List.mem_cons_self _ _
    · exact List.mem_cons_of_mem _ ((List.mem_erase_of_ne hx).mpr h)
  · rwa [if_neg hc]

theorem key_mem_touchLru {lru : List String} {key : String} (h : key ∈ lru) :
    key ∈ touchLru lru key := by
  unfold touchLru
  rw [if_pos (by simpa [List.contains] using h)]
  exact List.mem_cons_self _ _

theorem assocLookup_none_not_mem_fst {A : Type} {l : List (String × A)} {key : String}
    (h : assocLookup l key = none) : key ∉ l.map Prod.fst := by
  intro hmem
  rcases List.mem_map.mp hmem with ⟨p, hp, hfst⟩
  have := mem_lookup_isSome hp
  rw [hfst, h] at this
  simp at this

/-- `evict_if_needed` establishes the full memory-cache invariant for any
pre-state whose LRU covers its keys. -/
theorem evictIfNeeded_inv {V : Type} (maxBytes lfu : Nat) (s : MemoryState V)
    (hmax : 0 < maxBytes)
    (hsub : ∀ p ∈ s.entries, p.1 ∈ s.lru)
    (hnd : (s.entries.map Prod.fst).Nodup)
    (hhit : ∀ p ∈ s.entries, p.2.hit_count ≤ U64MAX) :
    MemInv maxBytes lfu (evictIfNeeded maxBytes lfu s) := by
  have hne : ¬ maxBytes = 0 := by omega
  have hdw1 :
      (s.lru.dropWhile (fun k => shouldSkipCandidate s.entries k true lfu)).length ≤
        s.lru.length :=
    List.Sublist.length_le (List.dropWhile_sublist _)
  have h1 := evictPass_spec maxBytes lfu true s.lru.length s hsub hnd hdw1
  simp only [evictIfNeeded, if_neg hne]
  by_cases hc :
      (evictPass maxBytes lfu true s.lru.length s).1.total_bytes ≤ maxBytes ||
        !(evictPass maxBytes lfu true s.lru.length s).2
  · rw [if_pos hc]
    refine ⟨h1.2.1, h1.2.2.1, ?_, ?_⟩
    · intro p hp; exact hhit p (h1.1 p hp)
    · rcases h1.2.2.2 with h | h
      · exact Or.inl h
      · refine Or.inr fun p hp => ?_
        rcases h p hp with h' | ⟨_, h2, h3⟩
        · exact Or.inl h'
        · exact Or.inr ⟨h2, h3⟩
  · rw [if_neg hc]
    have hdw2 :
        ((evictPass maxBytes lfu true s.lru.length s).1.lru.dropWhile
          (fun k => shouldSkipCandidate
            (evictPass maxBytes lfu true s.lru.length s).1.entries k false lfu)).length ≤
          (evictPass maxBytes lfu true s.lru.length s).1.lru.length :=
      List.Sublist.length_le (List.dropWhile_sublist _)
    have h2 := evictPass_spec maxBytes lfu false
      (evictPass maxBytes lfu true s.lru.length s).1.lru.length
      (evictPass maxBytes lfu true s.lru.length s).1 h1.2.1 h1.2.2.1 hdw2
    refine ⟨h2.2.1, h2.2.2.1, ?_, ?_⟩
    · intro p hp; exact hhit p (h1.1 p (h2.1 p hp))
    · rcases h2.2.2.2 with h | h
      · exact Or.inl h
      · refine Or.inr fun p hp => ?_
        rcases h p hp with h' | ⟨hff, _⟩
        · exact Or.inl h'
        · exact absurd hff (by simp)

/-- `MemoryCache::insert` preserves the invariant (for a positive budget). -/
theorem memoryInsert_inv {V : Type} (maxBytes lfu : Nat) (s : MemoryState V)
    (key : String) (value : V) (bytesEstimate : Nat) (pinned : Bool)
    (hmax : 0 < maxBytes) (hinv : MemInv maxBytes lfu s) :
    MemInv maxBytes lfu (memoryInsert maxBytes lfu s key value bytesEstimate pinned) := by
  obtain ⟨hsub, hnd, hhit, _⟩ := hinv
  cases hlook : assocLookup s.entries key with
  | some existing =>
    simp only [memoryInsert, hlook]
    apply evictIfNeeded_inv maxBytes lfu _ hmax
    · intro p hp
      rcases List.mem_cons.mp hp with hp | hp
      · subst hp; exact List.mem_cons_self _ _
      · rcases mem_assocErase.mp hp with ⟨hpm, hpne⟩
        exact List.mem_cons_of_mem _ ((List.mem_erase_of_ne hpne).mpr (hsub p hpm))
    · rw [List.map_cons]
      exact List.nodup_cons.mpr ⟨not_mem_map_fst_assocErase s.entries key,
        assocErase_nodup key hnd⟩
    · intro p hp
      rcases List.mem_cons.mp hp with hp | hp
      · subst hp; exact Nat.zero_le _
      · exact hhit p (mem_assocErase.mp hp).1
  | none =>
    simp only [memoryInsert, hlook]
    apply evictIfNeeded_inv maxBytes lfu _ hmax
    · intro p hp
      rcases List.mem_cons.mp hp with hp | hp
      · subst hp; exact List.mem_cons_self _ _
      · exact List.mem_cons_of_mem _ (hsub p hp)
    · rw [List.map_cons]
      exact List.nodup_cons.mpr ⟨assocLookup_none_not_mem_fst hlook, hnd⟩
    · intro p hp
      rcases List.mem_cons.mp hp with hp | hp
      · subst hp; exact Nat.zero_le _
      · exact hhit p hp

/-- `MemoryCache::get` preserves the invariant. -/
theorem memoryGet_inv {V : Type} (maxBytes lfu : Nat) (s : MemoryState V)
    (key : String) (hinv : MemInv maxBytes lfu s) :
    MemInv maxBytes lfu (memoryGet s key).1 := by
  obtain ⟨hsub, hnd, hhit, hdisj⟩ := hinv
  cases hlook : assocLookup s.entries key with
  | none =>
    simp only [memoryGet, hlook]
    exact ⟨hsub, hnd, hhit, hdisj⟩
  | some entry =>
    have hkeymem : key ∈ s.lru := hsub (key, entry) (assocLookup_mem hlook)
    have hentry : (key, entry) ∈ s.entries := assocLookup_mem hlook
    simp only [memoryGet, hlook]
    refine ⟨?_, ?_, ?_, ?_⟩
    · intro p hp
      rcases mem_assocUpdate hp with hp | hp
      · exact mem_touchLru key (hsub p hp)
      · rw [hp]; exact key_mem_touchLru hkeymem
    · rw [assocUpdate_map_fst]; exact hnd
    · intro p hp
      rcases mem_assocUpdate hp with hp | hp
      · exact hhit p hp
      · rw [hp]; exact satAdd_le_max _ _
    · rcases hdisj with h | h
      · exact Or.inl h
      · refine Or.inr fun p hp => ?_
        rcases mem_assocUpdate hp with hp | hp
        · exact h p hp
        · rcases h (key, entry) hentry with hpin | ⟨h1, h2⟩
          · rw [hp]; exact Or.inl hpin
          · rw [hp]
            exact Or.inr ⟨h1, Nat.le_trans h2 (le_satAdd_one (hhit (key, entry) hentry))⟩

theorem memInv_initial {V : Type} (maxBytes lfu : Nat) :
    MemInv maxBytes lfu (initialMemoryState V) := by
  refine ⟨?_, ?_, ?_, Or.inl (Nat.zero_le _)⟩ <;> simp [initialMemoryState]

theorem runMemoryOps_inv {V : Type} (maxBytes lfu : Nat) (hmax : 0 < maxBytes) :
    ∀ (ops : List (MemOp V)) (s : MemoryState V),
      MemInv maxBytes lfu s →
      MemInv maxBytes lfu (ops.foldl (memoryStep maxBytes lfu) s) := by
  intro ops
  induction ops with
  | nil => intro s h; exact h
  | cons op rest ih =>
    intro s h
    rw [List.foldl_cons]
    apply ih
    cases op with
    | insert key value bytesEstimate pinned =>
      exact memoryInsert_inv maxBytes lfu s key value bytesEstimate pinned hmax h
    | get key => exact memoryGet_inv maxBytes lfu s key h

/-! ## C1 — operation selection -/

/-- C1 counterexample: the payload has an entry whose name is exactly the
requested operation `"b"`, yet `select_operation_from_describe` returns
`"a"`: the `find_map(..).filter(..)` chain compares only the first entry
that has an id or name against the request. -/
theorem selectOperation_misses_later_match :
    (∃ e ∈ [Json.obj [("name", Json.str "a")], Json.obj [("name", Json.str "b")]],
        operationName e = some "b")
    ∧ selectOperationFromDescribe payloadTwoOps "b" = some "a" := by
  refine ⟨⟨Json.obj [("name", Json.str "b")], by simp, by rfl⟩, by rfl⟩

/-- C1 amended: only the first entry of `operations[]` that has an `id` or
`name` is compared against the requested operation; if its name equals the
request it is selected, otherwise if it equals `"run"` it is selected,
otherwise the id/name of `operations[0]` is selected (None when
`operations[0]` has no id or name). -/
theorem selectOperation_first_named (payload : Json) (req : String)
    (ops pre post : List Json) (e : Json) (n : String)
    (hops : (jsonGet payload "operations").bind asArr = some ops)
    (hsplit : ops = pre ++ e :: post)
    (hpre : ∀ x ∈ pre, operationName x = none)
    (hname : operationName e = some n) :
    selectOperationFromDescribe payload req =
      (if n = req then some n
       else if n = "run" then some n
       else ops.head?.bind operationName) := by
  have hfind : ops.findSome? operationName = some n := by
    rw [hsplit]; exact findSome?_append_first operationName pre e post n hpre hname
  unfold selectOperationFromDescribe
  rw [hops]
  simp only [hfind]
  by_cases h1 : n = req
  · simp [h1]
  · by_cases h2 : n = "run"
    · subst h2; simp [h1]
    · simp [h1, h2]

/-- Witness for the amended C1 theorem: the first entry has no name, the
second is named `"go"` and is requested; it is selected. -/
theorem selectOperation_first_named_witness :
    selectOperationFromDescribe
      (Json.obj [("operations", Json.arr
        [Json.obj [("x", Json.num 1)], Json.obj [("id", Json.str "go")]])])
      "go" = some "go" := by
  have h := selectOperation_first_named
    (Json.obj [("operations", Json.arr
      [Json.obj [("x", Json.num 1)], Json.obj [("id", Json.str "go")]])])
    "go"
    [Json.obj [("x", Json.num 1)], Json.obj [("id", Json.str "go")]]
    [Json.obj [("x", Json.num 1)]] []
    (Json.obj [("id", Json.str "go")]) "go"
    (by rfl) (by rfl)
    (by intro x hx; simp at hx; subst hx; rfl)
    (by rfl)
  simpa using h

/-! ## C5 — operator registry resolution -/

/-- C5: `resolve` with `provider_id` set consults only `by_provider_id`
(`provider_type` is ignored), returning `OpNotFound` when the provider row
exists without the op and `ProviderNotFound` when the row is absent; with
only `provider_type` set the same logic runs against `by_provider_type`;
with neither set the result is `ProviderNotFound`. -/
theorem operatorRegistry_resolve_cases {B : Type} (reg : OperatorRegistry B)
    (id ty opId : String) :
    (reg.resolve (some id) (some ty) opId = reg.resolve (some id) none opId)
    ∧ (reg.perProviderId id = none →
        reg.resolve (some id) (some ty) opId =
          Except.error OperatorResolveError.providerNotFound)
    ∧ (∀ ops, reg.perProviderId id = some ops → ops opId = none →
        reg.resolve (some id) (some ty) opId =
          Except.error OperatorResolveError.opNotFound)
    ∧ (∀ ops b, reg.perProviderId id = some ops → ops opId = some b →
        reg.resolve (some id) (some ty) opId = Except.ok b)
    ∧ (reg.perProviderType ty = none →
        reg.resolve none (some ty) opId =
          Except.error OperatorResolveError.providerNotFound)
    ∧ (∀ ops, reg.perProviderType ty = some ops → ops opId = none →
        reg.resolve none (some ty) opId =
          Except.error OperatorResolveError.opNotFound)
    ∧ (∀ ops b, reg.perProviderType ty = some ops → ops opId = some b →
        reg.resolve none (some ty) opId = Except.ok b)
    ∧ (reg.resolve none none opId =
        Except.error OperatorResolveError.providerNotFound) := by
  refine ⟨?_, ?_, ?_, ?_, ?_, ?_, ?_, ?_⟩
  · simp [OperatorRegistry.resolve]
  · intro h; simp [OperatorRegistry.resolve, h]
  · intro ops h1 h2; simp [OperatorRegistry.resolve, h1, h2]
  · intro ops b h1 h2; simp [OperatorRegistry.resolve, h1, h2]
  · intro h; simp [OperatorRegistry.resolve, h]
  · intro ops h1 h2; simp [OperatorRegistry.resolve, h1, h2]
  · intro ops b h1 h2; simp [OperatorRegistry.resolve, h1, h2]
  · simp [OperatorRegistry.resolve]

/-- Witness for the resolution cases at a concrete registry. -/
theorem operatorRegistry_resolve_cases_witness :
    sampleRegistry.resolve (some "p") (some "zzz") "op" = Except.ok 1
    ∧ sampleRegistry.resolve (some "q") (some "t") "op" =
        Except.error OperatorResolveError.providerNotFound
    ∧ sampleRegistry.resolve (some "p") (some "t") "nope" =
        Except.error OperatorResolveError.opNotFound
    ∧ sampleRegistry.resolve none (some "t") "op" = Except.ok 2
    ∧ sampleRegistry.resolve none none "op" =
        Except.error OperatorResolveError.providerNotFound := by
  refine ⟨?_, ?_, ?_, ?_, ?_⟩
  · exact (operatorRegistry_resolve_cases sampleRegistry "p" "zzz" "op").2.2.2.1
      (fun o => if o = "op" then some 1 else none) 1 (by rfl) (by rfl)
  · exact (operatorRegistry_resolve_cases sampleRegistry "q" "t" "op").2.1 (by rfl)
  · exact (operatorRegistry_resolve_cases sampleRegistry "p" "t" "nope").2.2.1
      (fun o => if o = "op" then some 1 else none) (by rfl) (by rfl)
  · exact (operatorRegistry_resolve_cases sampleRegistry "zzz" "t" "op").2.2.2.2.2.2.1
      (fun o => if o = "op" then some 2 else none) 2 (by rfl) (by rfl)
  · exact (operatorRegistry_resolve_cases sampleRegistry "zzz" "t" "op").2.2.2.2.2.2.2

/-! ## C9 — request flag normalization -/

/-- C9: each flag is trimmed and ASCII-lowercased before comparison;
`validate_output` is false exactly when some flag normalizes to
`skip-output-validate`, `strict` is false exactly when some flag normalizes
to `permissive-schema`, and every other flag is ignored (defaults stay
`true`/`true`). -/
theorem validationOptionsFromFlags_spec (flags : List String) :
    validationOptionsFromFlags flags =
      { validate_output := !(flags.any fun f => normalizeFlag f == FLAG_SKIP_OUTPUT_VALIDATE),
        strict := !(flags.any fun f => normalizeFlag f == FLAG_PERMISSIVE_SCHEMA) } := by
  suffices h : ∀ (fs : List String) (o : ExecutionValidationOptions),
      fs.foldl
        (fun options flag =>
          let f := normalizeFlag flag
          if f = FLAG_SKIP_OUTPUT_VALIDATE then { options with validate_output := false }
          else if f = FLAG_PERMISSIVE_SCHEMA then { options with strict := false }
          else options) o =
      { validate_output :=
          o.validate_output && !(fs.any fun f => normalizeFlag f == FLAG_SKIP_OUTPUT_VALIDATE),
        strict := o.strict && !(fs.any fun f => normalizeFlag f == FLAG_PERMISSIVE_SCHEMA) } by
    rw [validationOptionsFromFlags, h]
    simp
  intro fs
  induction fs with
  | nil => intro o; simp
  | cons a l ih =>
    intro o
    have hcc : (FLAG_SKIP_OUTPUT_VALIDATE == FLAG_PERMISSIVE_SCHEMA) = false := by
      decide
    have hcc' : (FLAG_PERMISSIVE_SCHEMA == FLAG_SKIP_OUTPUT_VALIDATE) = false := by
      decide
    have hpp : ¬(FLAG_PERMISSIVE_SCHEMA = FLAG_SKIP_OUTPUT_VALIDATE) := by decide
    have hss : ¬(FLAG_SKIP_OUTPUT_VALIDATE = FLAG_PERMISSIVE_SCHEMA) := by decide
    by_cases h1 : normalizeFlag a = FLAG_SKIP_OUTPUT_VALIDATE
    · have hne : normalizeFlag a ≠ FLAG_PERMISSIVE_SCHEMA := by
        rw [h1]; decide
      have hb1 : (normalizeFlag a == FLAG_SKIP_OUTPUT_VALIDATE) = true := by
        simp [h1]
      have hb2 : (normalizeFlag a == FLAG_PERMISSIVE_SCHEMA) = false := by
        simp [hne]
      simp [List.foldl_cons, List.any_cons, h1, hb1, hb2, hcc, hss, ih]
    · by_cases h2 : normalizeFlag a = FLAG_PERMISSIVE_SCHEMA
      · have hb1 : (normalizeFlag a == FLAG_SKIP_OUTPUT_VALIDATE) = false := by
          simp [h1]
        have hb2 : (normalizeFlag a == FLAG_PERMISSIVE_SCHEMA) = true := by
          simp [h2]
        simp [List.foldl_cons, List.any_cons, h1, h2, hb1, hb2, hcc, hcc', hpp, hss, ih]
      · have hb1 : (normalizeFlag a == FLAG_SKIP_OUTPUT_VALIDATE) = false := by
          simp [h1]
        have hb2 : (normalizeFlag a == FLAG_PERMISSIVE_SCHEMA) = false := by
          simp [h2]
        simp [List.foldl_cons, List.any_cons, h1, h2, hb1, hb2, hcc, hcc', hpp, hss, ih]

/-! ## Contract cache lemmas -/

theorem assocErase_cons_ne {A : Type} (p : String × A) (rest : List (String × A))
    (key : String) (h : ¬ p.1 = key) :
    assocErase (p :: rest) key = p :: assocErase rest key := by
  simp [assocErase, List.filter_cons, h]

theorem assocErase_cons_eq {A : Type} (p : String × A) (rest : List (String × A))
    (key : String) (h : p.1 = key) :
    assocErase (p :: rest) key = assocErase rest key := by
  simp [assocErase, List.filter_cons, h]

theorem assocErase_of_not_mem {A : Type} {l : List (String × A)} {key : String}
    (h : key ∉ l.map Prod.fst) : assocErase l key = l := by
  induction l with
  | nil => rfl
  | cons p rest ih =>
    simp only [List.map_cons, List.mem_cons, not_or] at h
    rw [assocErase_cons_ne p rest key (fun hh => h.1 hh.symm), ih h.2]

theorem sumEst_cons (p : String × ContractCacheEntry)
    (l : List (String × ContractCacheEntry)) :
    sumEst (p :: l) = p.2.bytes_estimate + sumEst l := by
  simp [sumEst]

theorem sumEst_erase {l : List (String × ContractCacheEntry)}
    (hnd : (l.map Prod.fst).Nodup) {key : String} {v : ContractCacheEntry}
    (h : assocLookup l key = some v) :
    sumEst (assocErase l key) + v.bytes_estimate = sumEst l := by
  induction l with
  | nil => simp [assocLookup] at h
  | cons p rest ih =>
    have hnd' : (rest.map Prod.fst).Nodup := (List.nodup_cons.mp hnd).2
    have hq : p.1 ∉ rest.map Prod.fst := (List.nodup_cons.mp hnd).1
    by_cases hk : p.1 = key
    · simp only [assocLookup, hk, if_pos] at h
      have hv : v = p.2 := by injection h with h'; exact h'.symm
      have hrest : assocErase rest key = rest := assocErase_of_not_mem (hk ▸ hq)
      rw [assocErase_cons_eq p rest key hk, hrest, hv, sumEst_cons]
      omega
    · simp only [assocLookup, hk, if_false, if_neg hk] at h
      rw [assocErase_cons_ne p rest key hk, sumEst_cons, sumEst_cons]
      have := ih hnd' h
      omega

/-- Behaviour of the contract-cache eviction loop: entries only disappear,
all invariant components are preserved, and afterwards the cache is at or
under budget (when the loop drains the LRU completely the cache is empty and
`total_bytes` is zero). -/
theorem contractEvictLoop_spec (maxBytes : Nat) :
    ∀ (n : Nat) (s : ContractCacheState), s.lru.length ≤ n →
      (∀ p ∈ s.entries, p.1 ∈ s.lru) →
      (s.entries.map Prod.fst).Nodup →
      s.lru.Nodup →
      (∀ k ∈ s.lru, (assocLookup s.entries k).isSome) →
      s.total_bytes = sumEst s.entries →
      (∀ p ∈ (contractEvictLoop maxBytes s).entries, p ∈ s.entries) ∧
      ContractInv maxBytes (contractEvictLoop maxBytes s) := by
  intro n
  induction n with
  | zero =>
    intro s hlen hsub hnd hlnd hlk htot
    have hnil : s.lru = [] := List.length_eq_zero.mp (Nat.le_zero.mp hlen)
    have hent : s.entries = [] := by
      apply List.eq_nil_iff_forall_not_mem.mpr
      intro p hp
      exact absurd (hsub p hp) (by simp [hnil])
    have htot0 : s.total_bytes = 0 := by rw [htot, hent]; rfl
    unfold contractEvictLoop
    rw [if_pos (by omega)]
    exact ⟨fun p hp => hp, hsub, hnd, hlnd, hlk, htot, by omega⟩
  | succ n ih =>
    intro s hlen hsub hnd hlnd hlk htot
    unfold contractEvictLoop
    split
    next htotle =>
      exact ⟨fun p hp => hp, hsub, hnd, hlnd, hlk, htot, htotle⟩
    next htotgt =>
      split
      next hpop =>
        have hnil : s.lru = [] := popBack_eq_none hpop
        have hent : s.entries = [] := by
          apply List.eq_nil_iff_forall_not_mem.mpr
          intro p hp
          exact absurd (hsub p hp) (by simp [hnil])
        have : s.total_bytes = 0 := by rw [htot, hent]; rfl
        omega
      next rest candidate hpop =>
        have hlru : s.lru = rest ++ [candidate] := popBack_eq_some hpop
        have hcnr : candidate ∉ rest := by
          have := hlnd
          rw [hlru] at this
          have h2 := List.nodup_append.mp this
          intro hc
          exact h2.2.2 hc (by simp)
        have hrestnd : rest.Nodup := by
          have := hlnd
          rw [hlru] at this
          exact (List.nodup_append.mp this).1
        have hrestlen : rest.length ≤ n := by
          have := hlen
          rw [hlru] at this
          simp at this
          omega
        split
        next entry hlook =>
          have hsub' : ∀ p ∈ assocErase s.entries candidate, p.1 ∈ rest := by
            intro p hp
            rcases mem_assocErase.mp hp with ⟨hpm, hpne⟩
            have hm := hsub p hpm
            rw [hlru] at hm
            rcases List.mem_append.mp hm with h | h
            · exact h
            · simp at h; exact absurd h hpne
          have hlk' : ∀ k ∈ rest, (assocLookup (assocErase s.entries candidate) k).isSome := by
            intro k hk
            have hkne : k ≠ candidate := fun hh => hcnr (hh ▸ hk)
            rw [assocLookup_erase_ne _ _ _ hkne]
            exact hlk k (by rw [hlru]; exact List.mem_append_left _ hk)
          have htot' : s.total_bytes - entry.bytes_estimate =
              sumEst (assocErase s.entries candidate) := by
            have := sumEst_erase hnd hlook
            omega
          have hres := ih
            { s with entries := assocErase s.entries candidate,
                     lru := rest,
                     total_bytes := s.total_bytes - entry.bytes_estimate,
                     evictions := satAdd s.evictions 1 }
            hrestlen hsub' (assocErase_nodup candidate hnd) hrestnd hlk' htot'
          exact ⟨fun p hp => (mem_assocErase.mp (hres.1 p hp)).1, hres.2⟩
        next hlook =>
          have hsub' : ∀ p ∈ s.entries, p.1 ∈ rest := by
            intro p hp
            have hm := hsub p hp
            rw [hlru] at hm
            rcases List.mem_append.mp hm with h | h
            · exact h
            · simp at h
              subst h
              have := mem_lookup_isSome hp
              rw [hlook] at this
              simp at this
          have hlk' : ∀ k ∈ rest, (assocLookup s.entries k).isSome := by
            intro k hk
            exact hlk k (by rw [hlru]; exact List.mem_append_left _ hk)
          exact ih { s with lru := rest } hrestlen hsub' hnd hrestnd hlk' htot

theorem est_le_sumEst {l : List (String × ContractCacheEntry)} {p : String × ContractCacheEntry}
    (h : p ∈ l) : p.2.bytes_estimate ≤ sumEst l := by
  induction l with
  | nil => simp at h
  | cons q rest ih =>
    rw [sumEst_cons]
    rcases List.mem_cons.mp h with h | h
    · subst h; omega
    · have := ih h; omega

theorem touchLru_nodup {lru : List String} (key : String) (h : lru.Nodup) :
    (touchLru lru key).Nodup := by
  unfold touchLru
  by_cases hc : lru.contains key
  · rw [if_pos hc]
    refine List.nodup_cons.mpr ⟨?_, h.erase key⟩
    intro hk
    exact absurd ((h.mem_erase_iff).mp hk).1 (by simp)
  · rwa [if_neg hc]

theorem mem_of_mem_touchLru {lru : List String} {key k : String}
    (h : k ∈ touchLru lru key) : k = key ∨ k ∈ lru := by
  unfold touchLru at h
  by_cases hc : lru.contains key
  · rw [if_pos hc] at h
    rcases List.mem_cons.mp h with h | h
    · exact Or.inl h
    · exact Or.inr (List.mem_of_mem_erase h)
  · rw [if_neg hc] at h
    exact Or.inr h

/-- `ContractCache::get` preserves the invariant. -/
theorem contractGet_inv (maxBytes : Nat) (s : ContractCacheState) (key : String)
    (hinv : ContractInv maxBytes s) : ContractInv maxBytes (contractGet s key).1 := by
  obtain ⟨hsub, hnd, hlnd, hlk, htot, hle⟩ := hinv
  cases hlook : assocLookup s.entries key with
  | none =>
    simp only [contractGet, hlook]
    exact ⟨hsub, hnd, hlnd, hlk, htot, hle⟩
  | some entry =>
    simp only [contractGet, hlook]
    refine ⟨?_, hnd, touchLru_nodup key hlnd, ?_, htot, hle⟩
    · intro p hp
      exact mem_touchLru key (hsub p hp)
    · intro k hk
      rcases mem_of_mem_touchLru hk with hk | hk
      · subst hk; rw [hlook]; rfl
      · exact hlk k hk

/-- `ContractCache::insert` preserves the invariant, provided the inserted
snapshot's estimate cannot overflow `u64` on top of the budget. -/
theorem contractInsert_inv (maxBytes : Nat) (s : ContractCacheState) (key : String)
    (snap : ContractSnapshot) (hmax : 0 < maxBytes)
    (hbound : maxBytes + snap.estimatedBytes ≤ U64MAX)
    (hinv : ContractInv maxBytes s) :
    ContractInv maxBytes (contractInsert maxBytes s key snap) := by
  obtain ⟨hsub, hnd, hlnd, hlk, htot, hle⟩ := hinv
  have hne : ¬ maxBytes = 0 := by omega
  cases hlook : assocLookup s.entries key with
  | some existing =>
    have hkeylru : key ∉ s.lru.erase key := by
      intro hk
      exact absurd ((hlnd.mem_erase_iff).mp hk).1 (by simp)
    have htot1 : s.total_bytes - existing.bytes_estimate =
        sumEst (assocErase s.entries key) := by
      have := sumEst_erase hnd hlook
      omega
    have hsat : satAdd (s.total_bytes - existing.bytes_estimate) snap.estimatedBytes =
        (s.total_bytes - existing.bytes_estimate) + snap.estimatedBytes := by
      apply satAdd_eq_add
      omega
    simp only [contractInsert, hlook, contractEvictIfNeeded, if_neg hne]
    have hspec := contractEvictLoop_spec maxBytes
      (key :: s.lru.erase key).length
      { s with
        entries := (key, { snapshot := snap, bytes_estimate := snap.estimatedBytes })
          :: assocErase s.entries key,
        lru := key :: s.lru.erase key,
        total_bytes := satAdd (s.total_bytes - existing.bytes_estimate) snap.estimatedBytes,
        evictions := s.evictions }
      (le_refl _) ?_ ?_ ?_ ?_ ?_
    · exact hspec.2
    · intro p hp
      rcases List.mem_cons.mp hp with hp | hp
      · subst hp; exact List.mem_cons_self _ _
      · rcases mem_assocErase.mp hp with ⟨hpm, hpne⟩
        exact List.mem_cons_of_mem _ ((List.mem_erase_of_ne hpne).mpr (hsub p hpm))
    · rw [List.map_cons]
      exact List.nodup_cons.mpr ⟨not_mem_map_fst_assocErase s.entries key,
        assocErase_nodup key hnd⟩
    · exact List.nodup_cons.mpr ⟨hkeylru, hlnd.erase key⟩
    · intro k hk
      rcases List.mem_cons.mp hk with hk | hk
      · subst hk; simp [assocLookup]
      · have hkne : ¬ key = k := by
          intro hh; subst hh; exact hkeylru hk
        simp only [assocLookup, hkne, if_false, if_neg hkne]
        rw [assocLookup_erase_ne _ _ _ (fun hh => hkne hh.symm)]
        exact hlk k (List.mem_of_mem_erase hk)
    · dsimp only
      rw [hsat, sumEst_cons]
      dsimp only
      omega
  | none =>
    have hkeylru : key ∉ s.lru := by
      intro hk
      have := hlk key hk
      rw [hlook] at this
      simp at this
    have hsat : satAdd s.total_bytes snap.estimatedBytes =
        s.total_bytes + snap.estimatedBytes := by
      apply satAdd_eq_add
      omega
    simp only [contractInsert, hlook, contractEvictIfNeeded, if_neg hne]
    have hspec := contractEvictLoop_spec maxBytes
      (key :: s.lru).length
      { s with
        entries := (key, { snapshot := snap, bytes_estimate := snap.estimatedBytes })
          :: s.entries,
        lru := key :: s.lru,
        total_bytes := satAdd s.total_bytes snap.estimatedBytes }
      (le_refl _) ?_ ?_ ?_ ?_ ?_
    · exact hspec.2
    · intro p hp
      rcases List.mem_cons.mp hp with hp | hp
      · subst hp; exact List.mem_cons_self _ _
      · exact List.mem_cons_of_mem _ (hsub p hp)
    · rw [List.map_cons]
      exact List.nodup_cons.mpr ⟨assocLookup_none_not_mem_fst hlook, hnd⟩
    · exact List.nodup_cons.mpr ⟨hkeylru, hlnd⟩
    · intro k hk
      rcases List.mem_cons.mp hk with hk | hk
      · subst hk; simp [assocLookup]
      · have hkne : ¬ key = k := by
          intro hh; subst hh; exact hkeylru hk
        simp only [assocLookup, hkne, if_false, if_neg hkne]
        exact hlk k hk
    · dsimp only
      rw [hsat, sumEst_cons]
      dsimp only
      omega

/-- When the freshly inserted entry sits at the LRU front with an estimate
above the budget, the eviction loop drains the whole cache. -/
theorem contractEvictLoop_front_big (maxBytes : Nat) :
    ∀ (n : Nat) (s : ContractCacheState) (key : String) (tail : List String)
      (e : ContractCacheEntry),
      s.lru.length ≤ n →
      s.lru = key :: tail →
      (∀ p ∈ s.entries, p.1 ∈ s.lru) →
      (s.entries.map Prod.fst).Nodup →
      s.lru.Nodup →
      (∀ k ∈ s.lru, (assocLookup s.entries k).isSome) →
      s.total_bytes = sumEst s.entries →
      assocLookup s.entries key = some e →
      maxBytes < e.bytes_estimate →
      (contractEvictLoop maxBytes s).entries = [] := by
  intro n
  induction n with
  | zero =>
    intro s key tail e hlen hfront _ _ _ _ _ _ _
    rw [hfront] at hlen
    simp at hlen
  | succ n ih =>
    intro s key tail e hlen hfront hsub hnd hlnd hlk htot hke hbig
    have hkeymem : (key, e) ∈ s.entries := assocLookup_mem hke
    have htotbig : ¬ s.total_bytes ≤ maxBytes := by
      have := est_le_sumEst hkeymem
      simp only at this
      omega
    unfold contractEvictLoop
    split
    next htotle => exact absurd htotle htotbig
    next =>
      split
      next hpop =>
        rw [popBack_eq_none hpop] at hfront
        simp at hfront
      next rest candidate hpop =>
        have hlru : s.lru = rest ++ [candidate] := popBack_eq_some hpop
        cases rest with
        | nil =>
          have hck : candidate = key ∧ tail = [] := by
            rw [hfront] at hlru
            simp at hlru
            exact ⟨hlru.1.symm, hlru.2⟩
          obtain ⟨hck, htail⟩ := hck
          subst hck
          have herase : assocErase s.entries candidate = [] := by
            apply List.eq_nil_iff_forall_not_mem.mpr
            intro p hp
            rcases mem_assocErase.mp hp with ⟨hpm, hpne⟩
            have := hsub p hpm
            rw [hfront, htail] at this
            simp at this
            exact hpne this
          split
          next entry hlook =>
            have hsum := sumEst_erase hnd hlook
            have hspec := contractEvictLoop_spec maxBytes 0
              { s with entries := assocErase s.entries candidate,
                       lru := [],
                       total_bytes := s.total_bytes - entry.bytes_estimate,
                       evictions := satAdd s.evictions 1 }
              (by simp) ?_ ?_ ?_ ?_ ?_
            · apply List.eq_nil_iff_forall_not_mem.mpr
              intro p hp
              have hmem := hspec.1 p hp
              dsimp only at hmem
              rw [herase] at hmem
              simp at hmem
            · intro p hp
              dsimp only at hp
              rw [herase] at hp
              simp at hp
            · dsimp only
              rw [herase]
              simp
            · simp
            · intro k hk
              simp at hk
            · dsimp only
              omega
          next hlook =>
            rw [hke] at hlook
            simp at hlook
        | cons r rs =>
          have hkr : key = r ∧ tail = rs ++ [candidate] := by
            rw [hfront] at hlru
            simp at hlru
            exact ⟨hlru.1, hlru.2⟩
          obtain ⟨hkr, htail⟩ := hkr
          have hcnk : candidate ≠ key := by
            intro hh
            subst hh
            have : candidate ∉ tail := by
              rw [hfront] at hlnd
              exact (List.nodup_cons.mp hlnd).1
            rw [htail] at this
            simp at this
          have hrestlen : (r :: rs).length ≤ n := by
            rw [hlru] at hlen
            simp at hlen ⊢
            omega
          have hrestnd : (r :: rs).Nodup := by
            rw [hlru] at hlnd
            exact (List.nodup_append.mp hlnd).1
          have hcnrest : candidate ∉ r :: rs := by
            rw [hlru] at hlnd
            have h2 := List.nodup_append.mp hlnd
            intro hc
            exact h2.2.2 hc (by simp)
          split
          next entry hlook =>
            apply ih
              { s with entries := assocErase s.entries candidate,
                       lru := r :: rs,
                       total_bytes := s.total_bytes - entry.bytes_estimate,
                       evictions := satAdd s.evictions 1 }
              key rs e hrestlen (by simp [hkr]) ?_ ?_ hrestnd ?_ ?_ ?_ hbig
            · intro p hp
              rcases mem_assocErase.mp hp with ⟨hpm, hpne⟩
              have hm := hsub p hpm
              rw [hlru] at hm
              rcases List.mem_append.mp hm with h | h
              · exact h
              · simp at h; exact absurd h hpne
            · exact assocErase_nodup candidate hnd
            · intro k hk
              have hkne : k ≠ candidate := fun hh => hcnrest (hh ▸ hk)
              rw [assocLookup_erase_ne _ _ _ hkne]
              exact hlk k (by rw [hlru]; exact List.mem_append_left _ hk)
            · have := sumEst_erase hnd hlook
              dsimp only
              omega
            · dsimp only
              rw [assocLookup_erase_ne s.entries candidate key (Ne.symm hcnk)]
              exact hke
          next hlook =>
            apply ih { s with lru := r :: rs } key rs e hrestlen (by simp [hkr]) ?_ hnd
              hrestnd ?_ htot hke hbig
            · intro p hp
              have hm := hsub p hp
              rw [hlru] at hm
              rcases List.mem_append.mp hm with h | h
              · exact h
              · simp at h
                subst h
                have := mem_lookup_isSome hp
                rw [hlook] at this
                simp at this
            · intro k hk
              exact hlk k (by rw [hlru]; exact List.mem_append_left _ hk)

/-- An insert whose single snapshot estimate exceeds the (positive) budget
leaves the contract cache empty: the new entry sits at the LRU front, so
everything else is popped first and then the entry itself is evicted. -/
theorem contractInsert_big_empties (maxBytes : Nat) (s : ContractCacheState)
    (key : String) (snap : ContractSnapshot) (hmax : 0 < maxBytes)
    (hbound : maxBytes + snap.estimatedBytes ≤ U64MAX)
    (hbig : maxBytes < snap.estimatedBytes)
    (hinv : ContractInv maxBytes s) :
    (contractInsert maxBytes s key snap).entries = [] := by
  obtain ⟨hsub, hnd, hlnd, hlk, htot, hle⟩ := hinv
  have hne : ¬ maxBytes = 0 := by omega
  cases hlook : assocLookup s.entries key with
  | some existing =>
    have hkeylru : key ∉ s.lru.erase key := by
      intro hk
      exact absurd ((hlnd.mem_erase_iff).mp hk).1 (by simp)
    have htot1 : s.total_bytes - existing.bytes_estimate =
        sumEst (assocErase s.entries key) := by
      have := sumEst_erase hnd hlook
      omega
    have hsat : satAdd (s.total_bytes - existing.bytes_estimate) snap.estimatedBytes =
        (s.total_bytes - existing.bytes_estimate) + snap.estimatedBytes := by
      apply satAdd_eq_add
      omega
    simp only [contractInsert, hlook, contractEvictIfNeeded, if_neg hne]
    apply contractEvictLoop_front_big maxBytes (key :: s.lru.erase key).length _
      key (s.lru.erase key)
      { snapshot := snap, bytes_estimate := snap.estimatedBytes }
      (le_refl _) rfl ?_ ?_ ?_ ?_ ?_ (by simp [assocLookup]) hbig
    · intro p hp
      rcases List.mem_cons.mp hp with hp | hp
      · subst hp; exact List.mem_cons_self _ _
      · rcases mem_assocErase.mp hp with ⟨hpm, hpne⟩
        exact List.mem_cons_of_mem _ ((List.mem_erase_of_ne hpne).mpr (hsub p hpm))
    · rw [List.map_cons]
      exact List.nodup_cons.mpr ⟨not_mem_map_fst_assocErase s.entries key,
        assocErase_nodup key hnd⟩
    · exact List.nodup_cons.mpr ⟨hkeylru, hlnd.erase key⟩
    · intro k hk
      rcases List.mem_cons.mp hk with hk | hk
      · subst hk; simp [assocLookup]
      · have hkne : ¬ key = k := by
          intro hh; subst hh; exact hkeylru hk
        simp only [assocLookup, hkne, if_false, if_neg hkne]
        rw [assocLookup_erase_ne _ _ _ (fun hh => hkne hh.symm)]
        exact hlk k (List.mem_of_mem_erase hk)
    · dsimp only
      rw [hsat, sumEst_cons]
      dsimp only
      omega
  | none =>
    have hkeylru : key ∉ s.lru := by
      intro hk
      have := hlk key hk
      rw [hlook] at this
      simp at this
    have hsat : satAdd s.total_bytes snap.estimatedBytes =
        s.total_bytes + snap.estimatedBytes := by
      apply satAdd_eq_add
      omega
    simp only [contractInsert, hlook, contractEvictIfNeeded, if_neg hne]
    apply contractEvictLoop_front_big maxBytes (key :: s.lru).length _
      key s.lru
      { snapshot := snap, bytes_estimate := snap.estimatedBytes }
      (le_refl _) rfl ?_ ?_ ?_ ?_ ?_ (by simp [assocLookup]) hbig
    · intro p hp
      rcases List.mem_cons.mp hp with hp | hp
      · subst hp; exact List.mem_cons_self _ _
      · exact List.mem_cons_of_mem _ (hsub p hp)
    · rw [List.map_cons]
      exact List.nodup_cons.mpr ⟨assocLookup_none_not_mem_fst hlook, hnd⟩
    · exact List.nodup_cons.mpr ⟨hkeylru, hlnd⟩
    · intro k hk
      rcases List.mem_cons.mp hk with hk | hk
      · subst hk; simp [assocLookup]
      · have hkne : ¬ key = k := by
          intro hh; subst hh; exact hkeylru hk
        simp only [assocLookup, hkne, if_false, if_neg hkne]
        exact hlk k hk
    · dsimp only
      rw [hsat, sumEst_cons]
      dsimp only
      omega

theorem contractInv_initial (maxBytes : Nat) : ContractInv maxBytes initialContractState := by
  refine ⟨?_, ?_, ?_, ?_, rfl, Nat.zero_le _⟩ <;> simp [initialContractState]

theorem runContractOps_inv (maxBytes : Nat) (hmax : 0 < maxBytes) :
    ∀ (ops : List ContractOp) (s : ContractCacheState),
      ContractInv maxBytes s →
      (∀ key snap, ContractOp.insert key snap ∈ ops →
        maxBytes + snap.estimatedBytes ≤ U64MAX) →
      ContractInv maxBytes (ops.foldl (contractStep maxBytes) s) := by
  intro ops
  induction ops with
  | nil => intro s h _; exact h
  | cons op rest ih =>
    intro s h hbound
    rw [List.foldl_cons]
    apply ih
    · cases op with
      | insert key snap =>
        exact contractInsert_inv maxBytes s key snap hmax
          (hbound key snap (List.mem_cons_self _ _)) h
      | get key => exact contractGet_inv maxBytes s key h
    · intro key snap hmem
      exact hbound key snap (List.mem_cons_of_mem _ hmem)

/-! ## C2 — memory-cache eviction invariant -/

/-- C2 counterexample: with `max_bytes = 10` and `lfu_protect_hits = 1`, an
unpinned entry hit once followed by a pinned over-budget insert leaves
`total_bytes = 12 > 10` while an unpinned entry (`"a"`, hit once) is still
resident: the pressure pass is skipped because the protected pass evicted
nothing, refuting `total_bytes ≤ max_bytes ∨ all remaining entries pinned`. -/
theorem memoryCache_eviction_claim_false :
    (memoryStats (runMemoryOps 10 1 memOpsLfuPinned)).total_bytes = 12 ∧
    ¬ ((memoryStats (runMemoryOps 10 1 memOpsLfuPinned)).total_bytes ≤ 10 ∨
        ∀ p ∈ (runMemoryOps 10 1 memOpsLfuPinned).entries, p.2.pinned = true) := by
  decide

/-- C2 amended: for `max_bytes > 0`, after any finite sequence of inserts and
gets either `total_bytes ≤ max_bytes` or every remaining entry is pinned
**or LFU-protected** (`lfu_protect_hits > 0` and
`hit_count ≥ lfu_protect_hits`); the pressure pass only runs after a
protected-pass eviction, so LFU-protected unpinned entries can hold the
cache over budget. -/
theorem memoryCache_eviction_invariant {V : Type} (maxBytes lfuProtectHits : Nat)
    (ops : List (MemOp V)) (hmax : 0 < maxBytes) :
    (memoryStats (runMemoryOps maxBytes lfuProtectHits ops)).total_bytes ≤ maxBytes ∨
      ∀ p ∈ (runMemoryOps maxBytes lfuProtectHits ops).entries,
        p.2.pinned = true ∨ (0 < lfuProtectHits ∧ lfuProtectHits ≤ p.2.hit_count) :=
  (runMemoryOps_inv maxBytes lfuProtectHits hmax ops (initialMemoryState V)
    (memInv_initial maxBytes lfuProtectHits)).2.2.2

/-- Witness for the amended C2 theorem at the counterexample scenario. -/
theorem memoryCache_eviction_invariant_witness :
    (0 : Nat) < 10 ∧
    ((memoryStats (runMemoryOps 10 1 memOpsLfuPinned)).total_bytes ≤ 10 ∨
      ∀ p ∈ (runMemoryOps 10 1 memOpsLfuPinned).entries,
        p.2.pinned = true ∨ ((0 : Nat) < 1 ∧ 1 ≤ p.2.hit_count)) :=
  ⟨by decide, memoryCache_eviction_invariant 10 1 memOpsLfuPinned (by decide)⟩

/-! ## C8 — zero budget disables eviction -/

/-- C8: with `max_bytes = 0`, `evict_if_needed` returns immediately in both
caches: an insert never bumps `evictions`, every other resident key keeps its
entry, and the inserted key is resident. -/
theorem zeroBudget_disables_eviction {V : Type} (lfuProtectHits : Nat)
    (s : MemoryState V) (key : String) (value : V) (bytesEstimate : Nat)
    (pinned : Bool) (cs : ContractCacheState) (ckey : String)
    (snap : ContractSnapshot) :
    (memoryInsert 0 lfuProtectHits s key value bytesEstimate pinned).evictions =
        s.evictions ∧
    (∀ k, k ≠ key →
      assocLookup (memoryInsert 0 lfuProtectHits s key value bytesEstimate pinned).entries
          k = assocLookup s.entries k) ∧
    (assocLookup (memoryInsert 0 lfuProtectHits s key value bytesEstimate pinned).entries
        key).isSome ∧
    (contractInsert 0 cs ckey snap).evictions = cs.evictions ∧
    (∀ k, k ≠ ckey →
      assocLookup (contractInsert 0 cs ckey snap).entries k =
        assocLookup cs.entries k) ∧
    (assocLookup (contractInsert 0 cs ckey snap).entries ckey).isSome := by
  have hzm : ∀ (t : MemoryState V), evictIfNeeded 0 lfuProtectHits t = t := by
    intro t; simp [evictIfNeeded]
  have hzc : ∀ (t : ContractCacheState), contractEvictIfNeeded 0 t = t := by
    intro t; simp [contractEvictIfNeeded]
  refine ⟨?_, ?_, ?_, ?_, ?_, ?_⟩
  · cases hlook : assocLookup s.entries key <;>
      simp [memoryInsert, hlook, hzm]
  · intro k hk
    cases hlook : assocLookup s.entries key <;>
      simp [memoryInsert, hlook, hzm, assocLookup, hk.symm, assocLookup_erase_ne _ _ _ hk]
  · cases hlook : assocLookup s.entries key <;>
      simp [memoryInsert, hlook, hzm, assocLookup]
  · cases hlook : assocLookup cs.entries ckey <;>
      simp [contractInsert, hlook, hzc]
  · intro k hk
    cases hlook : assocLookup cs.entries ckey <;>
      simp [contractInsert, hlook, hzc, assocLookup, hk.symm, assocLookup_erase_ne _ _ _ hk]
  · cases hlook : assocLookup cs.entries ckey <;>
      simp [contractInsert, hlook, hzc, assocLookup]

/-- Witness for the zero-budget theorem at concrete states. -/
theorem zeroBudget_disables_eviction_witness :
    (memoryInsert 0 0 (memoryInsert 0 0 (initialMemoryState Unit) "x" () 5 false)
        "y" () 7 true).evictions = 0 ∧
    assocLookup (memoryInsert 0 0 (memoryInsert 0 0 (initialMemoryState Unit) "x" () 5 false)
        "y" () 7 true).entries "x" =
      assocLookup (memoryInsert 0 0 (initialMemoryState Unit) "x" () 5 false).entries "x" := by
  have h := zeroBudget_disables_eviction 0
    (memoryInsert 0 0 (initialMemoryState Unit) "x" () 5 false) "y" () 7 true
    initialContractState "c"
    { resolved_digest := "d", component_id := "c", operation_id := "run",
      validate_output := true, strict := true, describe_hash := none,
      schema_hash := none }
  refine ⟨?_, h.2.1 "x" (by decide)⟩
  rw [h.1]
  decide

/-! ## C10 — contract-cache budget invariant -/

/-- C10: for the contract cache with `max_bytes > 0` (and estimates that
cannot overflow `u64` on top of the budget), after every insert
`stats().total_bytes ≤ max_bytes`, `total_bytes` always equals the sum of
the resident byte estimates, and an insert whose single snapshot estimate
exceeds `max_bytes` leaves the cache empty (eviction pops from the LRU back
with no pinning or LFU protection, so the fresh front entry goes last). -/
theorem contractCache_insert_budget (maxBytes : Nat) (ops : List ContractOp)
    (hmax : 0 < maxBytes)
    (hbound : ∀ key snap, ContractOp.insert key snap ∈ ops →
      maxBytes + snap.estimatedBytes ≤ U64MAX) :
    (contractStats (runContractOps maxBytes ops)).total_bytes ≤ maxBytes ∧
    (contractStats (runContractOps maxBytes ops)).total_bytes =
      sumEst (runContractOps maxBytes ops).entries ∧
    (∀ l key snap, ops = l ++ [ContractOp.insert key snap] →
      maxBytes < snap.estimatedBytes →
      (runContractOps maxBytes ops).entries = []) := by
  have hinv := runContractOps_inv maxBytes hmax ops initialContractState
    (contractInv_initial maxBytes) hbound
  refine ⟨hinv.2.2.2.2.2, hinv.2.2.2.2.1, ?_⟩
  intro l key snap hops hbig
  have hinvl := runContractOps_inv maxBytes hmax l initialContractState
    (contractInv_initial maxBytes)
    (fun k sn hm => hbound k sn (by rw [hops]; exact List.mem_append_left _ hm))
  have hb : maxBytes + snap.estimatedBytes ≤ U64MAX :=
    hbound key snap
      (by rw [hops]; exact List.mem_append_right _ (List.mem_cons_self _ _))
  rw [hops, runContractOps, List.foldl_append, List.foldl_cons, List.foldl_nil]
  exact contractInsert_big_empties maxBytes _ key snap hmax hb hbig hinvl

/-- Witness for the contract-cache budget theorem: after a small insert and
an over-budget insert the cache is within budget and empty. -/
theorem contractCache_insert_budget_witness :
    (0 : Nat) < 130 ∧
    (contractStats (runContractOps 130 contractOpsBig)).total_bytes ≤ 130 ∧
    (runContractOps 130 contractOpsBig).entries = [] := by
  have hb : ∀ key snap, ContractOp.insert key snap ∈ contractOpsBig →
      (130 : Nat) + snap.estimatedBytes ≤ U64MAX := by
    intro key snap hmem
    simp only [contractOpsBig, List.mem_cons, List.not_mem_nil, or_false] at hmem
    rcases hmem with h | h
    · injection h with h1 h2
      subst h2
      decide
    · injection h with h1 h2
      subst h2
      decide
  have h := contractCache_insert_budget 130 contractOpsBig (by decide) hb
  exact ⟨by decide, h.1,
    h.2.2 [ContractOp.insert "a" snapEmpty] "b" snapRun rfl (by decide)⟩

/-! ## C3 — disk cache roundtrip -/

/-- C3 counterexample: `write_atomic` accepts metadata whose `artifact_bytes`
(5) differs from the written payload length (3); the subsequent `try_read`
hits the length check, deletes the entry, and returns `None` instead of the
bytes. -/
theorem diskCache_roundtrip_claim_false :
    writeAtomic profileW emptyFs keyW [1, 2, 3] metaBadLen = Except.ok fsBadLen ∧
    metaBadLen.artifact_bytes ≠ ([1, 2, 3] : List Nat).length ∧
    (tryRead profileW "now" fsBadLen keyW).map Prod.snd = Except.ok none := by
  refine ⟨rfl, by decide, rfl⟩

/-- C3 amended: the write/read roundtrip holds for every metadata record
accepted by `write_atomic` whose `artifact_bytes` equals the length of the
written bytes: `try_read` then returns exactly those bytes. -/
theorem diskCache_roundtrip (profile : EngineProfile) (fs : String → DiskEntryFiles)
    (key : ArtifactKey) (bytes : List Nat) (meta : ArtifactMetadata) (now : String)
    (fs1 : String → DiskEntryFiles)
    (hw : writeAtomic profile fs key bytes meta = Except.ok fs1)
    (hlen : meta.artifact_bytes = bytes.length) :
    (tryRead profile now fs1 key).map Prod.snd = Except.ok (some bytes) := by
  unfold writeAtomic at hw
  split at hw
  next => simp at hw
  next hval =>
    split at hw
    next => simp at hw
    next hd =>
      split at hw
      next => simp at hw
      next hp =>
        have hfs : fs1 = updateFs fs (digestToFilename key.wasm_digest)
            { artifact := some bytes, meta := some (some meta) } := by
          injection hw with hw'
          exact hw'.symm
        subst hfs
        have hvalb : meta.validateForProfile profile = true := by
          by_contra hc
          exact hval (by simpa using hc)
        have hdig : meta.wasm_digest = key.wasm_digest := by
          by_contra hc
          exact hd hc
        unfold tryRead
        rw [if_neg hp]
        simp [updateFs, hvalb, hdig, hlen, Except.map]

/-- Witness for the amended roundtrip at a concrete write. -/
theorem diskCache_roundtrip_witness :
    (tryRead profileW "now" fsOkLen keyW).map Prod.snd =
      Except.ok (some [1, 2, 3]) :=
  diskCache_roundtrip profileW emptyFs keyW [1, 2, 3] metaOkLen "now" fsOkLen
    rfl rfl

/-! ## C4 — disk prune -/

theorem foldl_satAdd_eq_sum :
    ∀ (l : List Nat) (acc : Nat), acc + l.sum ≤ U64MAX →
      l.foldl satAdd acc = acc + l.sum := by
  intro l
  induction l with
  | nil => intro acc _; simp
  | cons x rest ih =>
    intro acc hle
    rw [List.foldl_cons, satAdd_eq_add _ _ (by simp [List.sum_cons] at hle; omega)]
    rw [ih (acc + x) (by simp [List.sum_cons] at hle ⊢; omega)]
    simp [List.sum_cons]
    omega

theorem totalEnumerated_eq_sum (entries : List PruneEntry)
    (h : (entries.map PruneEntry.size).sum ≤ U64MAX) :
    totalEnumerated entries = (entries.map PruneEntry.size).sum := by
  unfold totalEnumerated
  rw [← List.foldl_map PruneEntry.size satAdd entries 0]
  rw [foldl_satAdd_eq_sum _ 0 (by omega)]
  omega

theorem removeEntryFiles_cons_cwasm_eq (st : String) (size : Nat)
    (rest : List FsNode) (s₀ : String) (h : st = s₀) :
    removeEntryFiles (FsNode.cwasm st size :: rest) s₀ = removeEntryFiles rest s₀ := by
  simp [removeEntryFiles, List.filter_cons, h]

theorem removeEntryFiles_cons_cwasm_ne (st : String) (size : Nat)
    (rest : List FsNode) (s₀ : String) (h : ¬ st = s₀) :
    removeEntryFiles (FsNode.cwasm st size :: rest) s₀ =
      FsNode.cwasm st size :: removeEntryFiles rest s₀ := by
  simp [removeEntryFiles, List.filter_cons, h]

theorem removeEntryFiles_cons_json_eq (st : String) (parse : Option ArtifactMetadata)
    (rest : List FsNode) (s₀ : String) (h : st = s₀) :
    removeEntryFiles (FsNode.jsonMeta st parse :: rest) s₀ =
      removeEntryFiles rest s₀ := by
  simp [removeEntryFiles, List.filter_cons, h]

theorem removeEntryFiles_cons_json_ne (st : String) (parse : Option ArtifactMetadata)
    (rest : List FsNode) (s₀ : String) (h : ¬ st = s₀) :
    removeEntryFiles (FsNode.jsonMeta st parse :: rest) s₀ =
      FsNode.jsonMeta st parse :: removeEntryFiles rest s₀ := by
  simp [removeEntryFiles, List.filter_cons, h]

theorem removeEntryFiles_cons_other (name : String) (rest : List FsNode) (s₀ : String) :
    removeEntryFiles (FsNode.other name :: rest) s₀ =
      FsNode.other name :: removeEntryFiles rest s₀ := by
  simp [removeEntryFiles, List.filter_cons]

theorem pairedAux_cons_cwasm (ctx : List FsNode) (st : String) (size : Nat)
    (rest : List FsNode) :
    pairedAux ctx (FsNode.cwasm st size :: rest) = pairedAux ctx rest := by
  simp [pairedAux, List.filterMap_cons]

theorem pairedAux_cons_json_none (ctx : List FsNode) (st : String)
    (rest : List FsNode) :
    pairedAux ctx (FsNode.jsonMeta st none :: rest) = pairedAux ctx rest := by
  simp [pairedAux, List.filterMap_cons]

theorem pairedAux_cons_json_some (ctx : List FsNode) (st : String)
    (m : ArtifactMetadata) (rest : List FsNode) :
    pairedAux ctx (FsNode.jsonMeta st (some m) :: rest) =
      (st, (findCwasmSize ctx st).getD 0) :: pairedAux ctx rest := by
  simp [pairedAux, List.filterMap_cons]

theorem pairedAux_cons_other (ctx : List FsNode) (name : String)
    (rest : List FsNode) :
    pairedAux ctx (FsNode.other name :: rest) = pairedAux ctx rest := by
  simp [pairedAux, List.filterMap_cons]

theorem findCwasm_remove_ne (dir : List FsNode) (s₀ s : String) (h : s ≠ s₀) :
    findCwasmSize (removeEntryFiles dir s₀) s = findCwasmSize dir s := by
  induction dir with
  | nil => rfl
  | cons node rest ih =>
    cases node with
    | cwasm st size =>
      by_cases hst : st = s₀
      · rw [removeEntryFiles_cons_cwasm_eq st size rest s₀ hst, ih]
        have hne : ¬ st = s := by rw [hst]; exact fun hh => h hh.symm
        simp [findCwasmSize, hne]
      · rw [removeEntryFiles_cons_cwasm_ne st size rest s₀ hst]
        by_cases hss : st = s
        · simp [findCwasmSize, hss]
        · simp only [findCwasmSize, hss, if_false, if_neg hss]
          exact ih
    | jsonMeta st parse =>
      by_cases hst : st = s₀
      · rw [removeEntryFiles_cons_json_eq st parse rest s₀ hst, ih]
        rfl
      · rw [removeEntryFiles_cons_json_ne st parse rest s₀ hst]
        exact ih
    | other name =>
      rw [removeEntryFiles_cons_other name rest s₀]
      exact ih

theorem pairedAux_congr (ctx' ctx : List FsNode) :
    ∀ (l : List FsNode),
      (∀ stem m, FsNode.jsonMeta stem (some m) ∈ l →
        findCwasmSize ctx' stem = findCwasmSize ctx stem) →
      pairedAux ctx' l = pairedAux ctx l := by
  intro l
  induction l with
  | nil => intro _; rfl
  | cons node rest ih =>
    intro h
    have hrest := ih (fun stem m hm => h stem m (List.mem_cons_of_mem _ hm))
    cases node with
    | cwasm st size => simpa [pairedAux, List.filterMap_cons] using hrest
    | jsonMeta st parse =>
      cases parse with
      | none => simpa [pairedAux, List.filterMap_cons] using hrest
      | some m =>
        have hfind := h st m (List.mem_cons_self _ _)
        simp only [pairedAux, List.filterMap_cons] at hrest ⊢
        rw [hfind, hrest]
    | other name => simpa [pairedAux, List.filterMap_cons] using hrest

theorem pairedAux_remove (ctx : List FsNode) (s₀ : String) :
    ∀ (l : List FsNode),
      pairedAux ctx (removeEntryFiles l s₀) =
        (pairedAux ctx l).filter (fun p => p.1 != s₀) := by
  intro l
  induction l with
  | nil => rfl
  | cons node rest ih =>
    cases node with
    | cwasm st size =>
      by_cases hst : st = s₀
      · rw [removeEntryFiles_cons_cwasm_eq st size rest s₀ hst, ih,
          pairedAux_cons_cwasm]
      · rw [removeEntryFiles_cons_cwasm_ne st size rest s₀ hst,
          pairedAux_cons_cwasm, ih, pairedAux_cons_cwasm]
    | jsonMeta st parse =>
      cases parse with
      | none =>
        by_cases hst : st = s₀
        · rw [removeEntryFiles_cons_json_eq st none rest s₀ hst, ih,
            pairedAux_cons_json_none]
        · rw [removeEntryFiles_cons_json_ne st none rest s₀ hst,
            pairedAux_cons_json_none, ih, pairedAux_cons_json_none]
      | some m =>
        by_cases hst : st = s₀
        · rw [removeEntryFiles_cons_json_eq st (some m) rest s₀ hst, ih,
            pairedAux_cons_json_some, List.filter_cons]
          simp [hst]
        · rw [removeEntryFiles_cons_json_ne st (some m) rest s₀ hst,
            pairedAux_cons_json_some, ih, pairedAux_cons_json_some,
            List.filter_cons]
          simp [hst]
    | other name =>
      rw [removeEntryFiles_cons_other name rest s₀, pairedAux_cons_other, ih,
        pairedAux_cons_other]

theorem jsonMeta_mem_remove_ne {dir : List FsNode} {s₀ stem : String}
    {m : ArtifactMetadata}
    (h : FsNode.jsonMeta stem (some m) ∈ removeEntryFiles dir s₀) : stem ≠ s₀ := by
  have := List.of_mem_filter h
  simpa using this

theorem pairedRemove (dir : List FsNode) (s₀ : String) :
    pairedContribList (removeEntryFiles dir s₀) =
      (pairedContribList dir).filter (fun p => p.1 != s₀) := by
  unfold pairedContribList
  rw [pairedAux_congr (removeEntryFiles dir s₀) dir (removeEntryFiles dir s₀)
    (fun stem m hm => findCwasm_remove_ne dir s₀ stem (jsonMeta_mem_remove_ne hm))]
  exact pairedAux_remove dir s₀ dir

theorem pairedContribList_eq_enum (parseTs : String → Option Int) (dir : List FsNode) :
    pairedContribList dir =
      (pruneEnumerate parseTs dir).map (fun e => (e.stem, e.size)) := by
  unfold pairedContribList pairedAux pruneEnumerate
  rw [List.map_filterMap]
  congr 1
  funext node
  cases node with
  | cwasm st size => rfl
  | jsonMeta st parse => cases parse <;> rfl
  | other name => rfl

theorem pruneEnumerate_stems_sublist (parseTs : String → Option Int)
    (ctx : List FsNode) :
    ∀ (l : List FsNode),
      ((l.filterMap (fun node =>
        match node with
        | FsNode.jsonMeta stem (some meta) =>
          some { access := lastAccessTime parseTs meta, stem := stem,
                 size := (findCwasmSize ctx stem).getD 0 : PruneEntry }
        | _ => none)).map PruneEntry.stem).Sublist (jsonStems l) := by
  intro l
  induction l with
  | nil => simp [jsonStems]
  | cons node rest ih =>
    cases node with
    | cwasm st size =>
      simpa [jsonStems, List.filterMap_cons] using ih
    | jsonMeta st parse =>
      cases parse with
      | none =>
        simp only [jsonStems, List.filterMap_cons] at ih ⊢
        exact ih.cons st
      | some m =>
        simp only [jsonStems, List.filterMap_cons, List.map_cons] at ih ⊢
        exact ih.cons₂ st
    | other name =>
      simpa [jsonStems, List.filterMap_cons] using ih

/-- Core of the amended C4: the removal loop (non-dry-run) drives the total
size of sidecar-paired artifacts to at most the limit. -/
theorem pruneLoop_spec (limit : Nat) :
    ∀ (todo : List PruneEntry) (re rb remaining : Nat) (dir : List FsNode),
      remaining = (todo.map PruneEntry.size).sum →
      List.Perm (pairedContribList dir) (todo.map (fun e => (e.stem, e.size))) →
      (todo.map PruneEntry.stem).Nodup →
      pairedSizeBytes ((pruneLoop limit false todo re rb remaining dir).2.2) ≤ limit := by
  intro todo
  induction todo with
  | nil =>
    intro re rb remaining dir _ hperm _
    have : pairedContribList dir = [] := List.Perm.eq_nil (by simpa using hperm)
    simp [pruneLoop, pairedSizeBytes, this]
  | cons e rest ih =>
    intro re rb remaining dir hsum hperm hnd
    simp only [pruneLoop]
    split
    next hle =>
      have hsz : pairedSizeBytes dir = remaining := by
        unfold pairedSizeBytes
        rw [(hperm.map Prod.snd).sum_eq]
        rw [List.map_map]
        have : (Prod.snd ∘ fun e : PruneEntry => (e.stem, e.size)) = PruneEntry.size := by
          funext x; rfl
        rw [this, hsum]
      rw [hsz]
      exact hle
    next hgt =>
      have hstem : e.stem ∉ rest.map PruneEntry.stem := (List.nodup_cons.mp hnd).1
      have hsum' : remaining - e.size = (rest.map PruneEntry.size).sum := by
        rw [hsum]; simp
      have hperm' :
          List.Perm (pairedContribList (removeEntryFiles dir e.stem))
            (rest.map (fun e => (e.stem, e.size))) := by
        rw [pairedRemove]
        have hf := hperm.filter (fun p => p.1 != e.stem)
        have hrhs : ((e :: rest).map (fun e => (e.stem, e.size))).filter
            (fun p => p.1 != e.stem) = rest.map (fun e => (e.stem, e.size)) := by
          rw [List.map_cons, List.filter_cons,
            if_neg (by simp : ¬ (((e.stem, e.size).1 != e.stem) = true))]
          apply List.filter_eq_self.mpr
          intro x hx
          rcases List.mem_map.mp hx with ⟨r, hr, hrx⟩
          have : r.stem ≠ e.stem := by
            intro hh
            exact hstem (hh ▸ List.mem_map_of_mem PruneEntry.stem hr)
          rw [← hrx]
          simpa using this
        rw [hrhs] at hf
        exact hf
      have hnd' := (List.nodup_cons.mp hnd).2
      simpa using ih (satAdd re 1) (satAdd rb e.size) (remaining - e.size)
        (removeEntryFiles dir e.stem) hsum' hperm' hnd'

/-- C4 counterexample: a directory with one well-formed 6-byte entry with a
resolvable access timestamp plus an orphan 20-byte `.cwasm` without sidecar.
With limit 10, `prune_to_limit(false)` sees only 6 enumerated bytes, removes
nothing, and `approx_size_bytes` stays 26 > 10. -/
theorem diskCache_prune_claim_false :
    (pruneToLimit parseTsW (some 10) false dirOrphanPlus).1 =
      { removed_entries := 0, removed_bytes := 0 } ∧
    (pruneToLimit parseTsW (some 10) false dirOrphanPlus).2 = dirOrphanPlus ∧
    approxSizeBytes ((pruneToLimit parseTsW (some 10) false dirOrphanPlus).2) = 26 ∧
    ¬ approxSizeBytes ((pruneToLimit parseTsW (some 10) false dirOrphanPlus).2) ≤ 10 := by
  decide

/-- C4 amended: when a byte limit is configured, `prune_to_limit(false)`
drives the total size of the `.cwasm` artifacts **that have a parseable
metadata sidecar** to at most the limit (assuming unique sidecar stems and
no `u64` overflow of the enumerated total); `approx_size_bytes()` itself may
remain above the limit because orphan `.cwasm` files without (or with
unparsable) sidecars are counted by it but never enumerated by the prune. -/
theorem diskCache_prune_paired (parseTs : String → Option Int) (limit : Nat)
    (dir : List FsNode)
    (hnd : (jsonStems dir).Nodup)
    (hov : ((pruneEnumerate parseTs dir).map PruneEntry.size).sum ≤ U64MAX) :
    pairedSizeBytes ((pruneToLimit parseTs (some limit) false dir).2) ≤ limit := by
  have hperm0 : List.Perm (pruneSort (pruneEnumerate parseTs dir))
      (pruneEnumerate parseTs dir) :=
    List.perm_insertionSort _ _
  have hsum : ((pruneSort (pruneEnumerate parseTs dir)).map PruneEntry.size).sum =
      ((pruneEnumerate parseTs dir).map PruneEntry.size).sum :=
    (hperm0.map PruneEntry.size).sum_eq
  have htot : totalEnumerated (pruneEnumerate parseTs dir) =
      ((pruneSort (pruneEnumerate parseTs dir)).map PruneEntry.size).sum := by
    rw [totalEnumerated_eq_sum _ hov, hsum]
  have hpair : List.Perm (pairedContribList dir)
      ((pruneSort (pruneEnumerate parseTs dir)).map (fun e => (e.stem, e.size))) := by
    rw [pairedContribList_eq_enum parseTs dir]
    exact ((hperm0.map (fun e => (e.stem, e.size)))).symm
  have hndenum : ((pruneEnumerate parseTs dir).map PruneEntry.stem).Nodup :=
    List.Nodup.sublist (pruneEnumerate_stems_sublist parseTs dir dir) hnd
  have hndsort : ((pruneSort (pruneEnumerate parseTs dir)).map PruneEntry.stem).Nodup :=
    (List.Perm.nodup_iff (hperm0.map PruneEntry.stem)).mpr hndenum
  unfold pruneToLimit
  exact pruneLoop_spec limit (pruneSort (pruneEnumerate parseTs dir)) 0 0
    (totalEnumerated (pruneEnumerate parseTs dir)) dir htot hpair hndsort

/-- Witness for the amended C4 theorem at the counterexample directory. -/
theorem diskCache_prune_paired_witness :
    (jsonStems dirOrphanPlus).Nodup ∧
    ((pruneEnumerate parseTsW dirOrphanPlus).map PruneEntry.size).sum ≤ U64MAX ∧
    pairedSizeBytes ((pruneToLimit parseTsW (some 10) false dirOrphanPlus).2) ≤ 10 :=
  ⟨by decide, by decide,
    diskCache_prune_paired parseTsW 10 dirOrphanPlus (by decide) (by decide)⟩

/-! ## C7 — canonical hashing -/

theorem jsonSize_pos (v : Json) : 1 ≤ jsonSize v := by
  cases v <;> simp [jsonSize]

theorem lookupJson_eq_assoc : ∀ (es : List (String × Json)) (k : String),
    lookupJson es k = assocLookup es k := by
  intro es
  induction es with
  | nil => intro k; rfl
  | cons p rest ih =>
    intro k
    by_cases hk : p.1 = k
    · simp [lookupJson, assocLookup, hk]
    · simp only [lookupJson, assocLookup, hk, if_false, if_neg hk]
      exact ih k

theorem lookupJson_size : ∀ (es : List (String × Json)) (k : String) (v : Json),
    lookupJson es k = some v → jsonSize v ≤ jsonSizeObj es := by
  intro es
  induction es with
  | nil => intro k v h; simp [lookupJson] at h
  | cons p rest ih =>
    intro k v h
    match p with
    | (k', v') =>
      by_cases hk : k' = k
      · simp only [lookupJson, hk, if_pos] at h
        have : v = v' := by injection h with h'; exact h'.symm
        subst this
        simp [jsonSizeObj]
        omega
      · simp only [lookupJson, hk, if_false, if_neg hk] at h
        have := ih k v h
        simp [jsonSizeObj]
        omega

theorem mem_jsonSizeList : ∀ (items : List Json) (x : Json), x ∈ items →
    jsonSize x ≤ jsonSizeList items := by
  intro items
  induction items with
  | nil => intro x h; simp at h
  | cons j rest ih =>
    intro x h
    rcases List.mem_cons.mp h with h | h
    · subst h; simp [jsonSizeList]; omega
    · have := ih x h; simp [jsonSizeList]; omega

theorem canonFuel_congr : ∀ (f : Nat), ∀ (g : Nat) (v : Json),
    jsonSize v ≤ f → jsonSize v ≤ g →
    canonicalizeFuel f v = canonicalizeFuel g v := by
  intro f
  induction f with
  | zero =>
    intro g v hf _
    have := jsonSize_pos v
    omega
  | succ f ih =>
    intro g v hf hg
    cases g with
    | zero =>
      have := jsonSize_pos v
      omega
    | succ g =>
      cases v with
      | null => rfl
      | bool b => rfl
      | num n => rfl
      | str s => rfl
      | arr items =>
        simp only [canonicalizeFuel]
        congr 1
        apply List.map_congr_left
        intro x hx
        have hs := mem_jsonSizeList items x hx
        have hsz : jsonSize (Json.arr items) = 1 + jsonSizeList items := rfl
        exact ih g x (by omega) (by omega)
      | obj map =>
        simp only [canonicalizeFuel]
        congr 1
        apply List.map_congr_left
        intro key _
        cases hl : lookupJson map key with
        | none => rfl
        | some v' =>
          have hs := lookupJson_size map key v' hl
          have hsz : jsonSize (Json.obj map) = 1 + jsonSizeObj map := rfl
          simp only
          rw [ih g v' (by omega) (by omega)]

theorem canonFuel_eq_canonicalizeJson (f : Nat) (v : Json) (h : jsonSize v ≤ f) :
    canonicalizeFuel f v = canonicalizeJson v :=
  canonFuel_congr f (jsonSize v) v h (le_refl _)

theorem map_eq_of_forall_zip {α β : Type} (F G : α → β) :
    ∀ (xs ys : List α), xs.length = ys.length →
      (∀ p ∈ xs.zip ys, F p.1 = G p.2) → xs.map F = ys.map G := by
  intro xs
  induction xs with
  | nil =>
    intro ys hlen _
    cases ys with
    | nil => rfl
    | cons y ys => simp at hlen
  | cons x rest ih =>
    intro ys hlen hzip
    cases ys with
    | nil => simp at hlen
    | cons y ys =>
      rw [List.map_cons, List.map_cons]
      rw [hzip (x, y) (by simp [List.zip_cons_cons])]
      rw [ih ys (by simpa using hlen)
        (fun p hp => hzip p (by simp [List.zip_cons_cons, hp]))]

theorem canonFuel_keyPermEq : ∀ (f : Nat) (a b : Json),
    jsonSize a ≤ f → jsonSize b ≤ f → JsonWF a → JsonWF b → KeyPermEq a b →
    canonicalizeFuel f a = canonicalizeFuel f b := by
  intro f
  induction f with
  | zero =>
    intro a b ha _ _ _ _
    have := jsonSize_pos a
    omega
  | succ f ih =>
    intro a b ha hb wfa wfb hperm
    cases hperm with
    | null => rfl
    | bool b => rfl
    | num n => rfl
    | str s => rfl
    | arr xs ys hlen hzip =>
      have hwx : ∀ j ∈ xs, JsonWF j := by cases wfa with | arr _ h => exact h
      have hwy : ∀ j ∈ ys, JsonWF j := by cases wfb with | arr _ h => exact h
      simp only [canonicalizeFuel]
      congr 1
      apply map_eq_of_forall_zip _ _ xs ys hlen
      intro p hp
      have hmx : p.1 ∈ xs := (List.of_mem_zip hp).1
      have hmy : p.2 ∈ ys := (List.of_mem_zip hp).2
      have hsx := mem_jsonSizeList xs p.1 hmx
      have hsy := mem_jsonSizeList ys p.2 hmy
      have hsza : jsonSize (Json.arr xs) = 1 + jsonSizeList xs := rfl
      have hszb : jsonSize (Json.arr ys) = 1 + jsonSizeList ys := rfl
      exact ih p.1 p.2 (by omega) (by omega) (hwx p.1 hmx) (hwy p.2 hmy)
        (hzip p hp)
    | obj es fs hkeys hvals =>
      have hnde : (es.map Prod.fst).Nodup := by cases wfa with | obj _ h _ => exact h
      have hwves : ∀ p ∈ es, JsonWF p.2 := by cases wfa with | obj _ _ h => exact h
      have hwvfs : ∀ p ∈ fs, JsonWF p.2 := by cases wfb with | obj _ _ h => exact h
      simp only [canonicalizeFuel]
      have hsorteq : (es.map Prod.fst).insertionSort (fun a b => a ≤ b) =
          (fs.map Prod.fst).insertionSort (fun a b => a ≤ b) := by
        haveI : IsAntisymm String (fun a b : String => a ≤ b) :=
          ⟨fun a b h1 h2 => le_antisymm h1 h2⟩
        exact List.eq_of_perm_of_sorted
          (((List.perm_insertionSort _ _).trans hkeys).trans
            (List.perm_insertionSort _ _).symm)
          (List.sorted_insertionSort _ _) (List.sorted_insertionSort _ _)
      rw [hsorteq]
      congr 1
      apply List.map_congr_left
      intro key hkey
      have hkf : key ∈ fs.map Prod.fst :=
        (List.perm_insertionSort _ _).subset hkey
      have hke : key ∈ es.map Prod.fst := hkeys.symm.subset hkf
      have hlke : (assocLookup es key).isSome := by
        rcases List.mem_map.mp hke with ⟨p, hp, hfst⟩
        exact hfst ▸ mem_lookup_isSome hp
      have hlkf : (assocLookup fs key).isSome := by
        rcases List.mem_map.mp hkf with ⟨p, hp, hfst⟩
        exact hfst ▸ mem_lookup_isSome hp
      cases hle : lookupJson es key with
      | none =>
        rw [lookupJson_eq_assoc] at hle
        rw [hle] at hlke
        simp at hlke
      | some v =>
        cases hlf : lookupJson fs key with
        | none =>
          rw [lookupJson_eq_assoc] at hlf
          rw [hlf] at hlkf
          simp at hlkf
        | some w =>
          simp only
          have hves : (key, v) ∈ es := by
            rw [lookupJson_eq_assoc] at hle
            exact assocLookup_mem hle
          have hvfs : (key, w) ∈ fs := by
            rw [lookupJson_eq_assoc] at hlf
            exact assocLookup_mem hlf
          have hsv := lookupJson_size es key v hle
          have hsw := lookupJson_size fs key w hlf
          have hsza : jsonSize (Json.obj es) = 1 + jsonSizeObj es := rfl
          have hszb : jsonSize (Json.obj fs) = 1 + jsonSizeObj fs := rfl
          rw [ih v w (by omega) (by omega) (hwves (key, v) hves)
            (hwvfs (key, w) hvfs) (hvals key v w hle hlf)]

/-- C7: canonicalization is invariant under reordering of object keys at any
nesting depth (for well-formed JSON), so the describe-hash and schema-hash
materials — and therefore the hashes, as functions of those materials — are
identical for key-permuted schemas. -/
theorem canonicalHashing_invariant (componentRef operation world : String)
    (in₁ in₂ out₁ out₂ cfg₁ cfg₂ : Json)
    (hw1 : JsonWF in₁) (hw2 : JsonWF in₂) (hw3 : JsonWF out₁) (hw4 : JsonWF out₂)
    (hw5 : JsonWF cfg₁) (hw6 : JsonWF cfg₂)
    (hin : KeyPermEq in₁ in₂) (hout : KeyPermEq out₁ out₂)
    (hcfg : KeyPermEq cfg₁ cfg₂) :
    canonicalizeJson in₁ = canonicalizeJson in₂ ∧
    canonicalizeJson out₁ = canonicalizeJson out₂ ∧
    canonicalizeJson cfg₁ = canonicalizeJson cfg₂ ∧
    describeMaterialOf componentRef operation world in₁ out₁ =
      describeMaterialOf componentRef operation world in₂ out₂ ∧
    schemaMaterialOf componentRef operation in₁ out₁ cfg₁ =
      schemaMaterialOf componentRef operation in₂ out₂ cfg₂ ∧
    (∀ hash : DescribeHashMaterial → String,
      hash (describeMaterialOf componentRef operation world in₁ out₁) =
        hash (describeMaterialOf componentRef operation world in₂ out₂)) ∧
    (∀ hash : SchemaHashMaterial → String,
      hash (schemaMaterialOf componentRef operation in₁ out₁ cfg₁) =
        hash (schemaMaterialOf componentRef operation in₂ out₂ cfg₂)) := by
  have hcanon : ∀ (a b : Json), JsonWF a → JsonWF b → KeyPermEq a b →
      canonicalizeJson a = canonicalizeJson b := by
    intro a b wfa wfb hab
    have h1 : canonicalizeJson a = canonicalizeFuel (max (jsonSize a) (jsonSize b)) a :=
      (canonFuel_eq_canonicalizeJson _ a (le_max_left _ _)).symm
    have h2 : canonicalizeFuel (max (jsonSize a) (jsonSize b)) b = canonicalizeJson b :=
      canonFuel_eq_canonicalizeJson _ b (le_max_right _ _)
    rw [h1, canonFuel_keyPermEq _ a b (le_max_left _ _) (le_max_right _ _) wfa wfb hab,
      h2]
  have hi := hcanon in₁ in₂ hw1 hw2 hin
  have ho := hcanon out₁ out₂ hw3 hw4 hout
  have hc := hcanon cfg₁ cfg₂ hw5 hw6 hcfg
  have hdm : describeMaterialOf componentRef operation world in₁ out₁ =
      describeMaterialOf componentRef operation world in₂ out₂ := by
    simp [describeMaterialOf, hi, ho]
  have hsm : schemaMaterialOf componentRef operation in₁ out₁ cfg₁ =
      schemaMaterialOf componentRef operation in₂ out₂ cfg₂ := by
    simp [schemaMaterialOf, hi, ho, hc]
  exact ⟨hi, ho, hc, hdm, hsm, fun hash => by rw [hdm], fun hash => by rw [hsm]⟩

/-- Witness for the canonical-hashing theorem on a two-key permutation. -/
theorem canonicalHashing_invariant_witness :
    canonicalizeJson (Json.obj [("a", Json.num 1), ("b", Json.num 2)]) =
      canonicalizeJson (Json.obj [("b", Json.num 2), ("a", Json.num 1)]) := by
  have hwf1 : JsonWF (Json.obj [("a", Json.num 1), ("b", Json.num 2)]) := by
    refine JsonWF.obj _ (by decide) ?_
    intro p hp
    rcases List.mem_cons.mp hp with h | h
    · subst h; exact JsonWF.num 1
    · rcases List.mem_cons.mp h with h | h
      · subst h; exact JsonWF.num 2
      · simp at h
  have hwf2 : JsonWF (Json.obj [("b", Json.num 2), ("a", Json.num 1)]) := by
    refine JsonWF.obj _ (by decide) ?_
    intro p hp
    rcases List.mem_cons.mp hp with h | h
    · subst h; exact JsonWF.num 2
    · rcases List.mem_cons.mp h with h | h
      · subst h; exact JsonWF.num 1
      · simp at h
  have hperm : KeyPermEq (Json.obj [("a", Json.num 1), ("b", Json.num 2)])
      (Json.obj [("b", Json.num 2), ("a", Json.num 1)]) := by
    refine KeyPermEq.obj _ _ (by decide) ?_
    intro k v w h1 h2
    by_cases hka : ("a" : String) = k
    · subst hka
      simp [lookupJson] at h1 h2
      subst h1; subst h2
      exact KeyPermEq.num 1
    · by_cases hkb : ("b" : String) = k
      · subst hkb
        simp [lookupJson] at h1 h2
        subst h1; subst h2
        exact KeyPermEq.num 2
      · simp [lookupJson, hka, hkb] at h1
  exact (canonicalHashing_invariant "c" "run" "w"
    (Json.obj [("a", Json.num 1), ("b", Json.num 2)])
    (Json.obj [("b", Json.num 2), ("a", Json.num 1)])
    Json.null Json.null Json.null Json.null
    hwf1 hwf2 JsonWF.null JsonWF.null JsonWF.null JsonWF.null
    hperm KeyPermEq.null KeyPermEq.null).1

/-! ## C6 — schema validator strict mode -/

/-- C6 counterexample: `schemaNestedArr` contains the key `pattern` (at a
nesting depth that passes through an array directly inside another array),
yet `collect_unsupported_constraints` finds nothing — its descent only
enters object values and object items of arrays — and strict validation
proceeds to standard validation with no `unsupported_schema_constraint`
issue, contradicting "exactly one issue per offending location and no
further validation". -/
theorem schemaValidator_nested_array_missed :
    jsonContainsKey (jsonSize schemaNestedArr) schemaNestedArr "pattern" = true ∧
    collectUnsupportedConstraints schemaNestedArr "" = [] ∧
    validateJsonInstance compileOk schemaNestedArr Json.null true = [] := by
  decide

/-- C6 amended: when `strict` is true and `collect_unsupported_constraints`
finds offending locations — the keys `pattern`/`format`/`patternProperties`
at object positions reachable by descending through object values and
through object items of arrays (keys under a non-object root or inside
arrays nested directly in arrays are not detected) — `validate` returns
exactly the per-location `unsupported_schema_constraint` issues with their
JSON-Pointer-like paths and performs no further validation; and every
`schema_validation` issue carries a non-empty instance path (the root is
reported as `/`). -/
theorem validateJsonInstance_spec
    (compile : Json → Except String (Json → List ValidatorError))
    (schema inst : Json) (strict : Bool) :
    (strict = true → collectUnsupportedConstraints schema "" ≠ [] →
      validateJsonInstance compile schema inst strict =
        (collectUnsupportedConstraints schema "").map mkUnsupportedIssue) ∧
    (∀ issue ∈ validateJsonInstance compile schema inst strict,
      issue.code = "schema_validation" → issue.path ≠ "") := by
  constructor
  · intro hs hne
    unfold validateJsonInstance
    rw [if_pos (by rw [hs]; simpa [List.isEmpty_iff] using hne)]
  · intro issue hmem hcode
    unfold validateJsonInstance at hmem
    dsimp only [] at hmem
    by_cases hc : (strict && !(collectUnsupportedConstraints schema "").isEmpty) = true
    · rw [if_pos hc] at hmem
      rcases List.mem_map.mp hmem with ⟨p, _, hp⟩
      rw [← hp] at hcode
      simp [mkUnsupportedIssue] at hcode
    · rw [if_neg hc] at hmem
      cases hcs : compile schema with
      | error err =>
        rw [hcs] at hmem
        simp only [List.mem_singleton] at hmem
        rw [hmem] at hcode
        simp at hcode
      | ok validator =>
        rw [hcs] at hmem
        rcases List.mem_map.mp hmem with ⟨e, _, hp⟩
        rw [← hp]
        by_cases he : e.instancePath = ""
        · simp [he]
        · simp [he]

/-- Witness for the amended C6 theorem: a `pattern` inside an object item of
an array is reported with its path and stops validation; a validator error
with empty instance path surfaces as `schema_validation` at `/`. -/
theorem validateJsonInstance_spec_witness :
    validateJsonInstance compileOk schemaArrObj Json.null true =
      [mkUnsupportedIssue "/anyOf/0/pattern"] ∧
    ("/" : String) ≠ "" := by
  constructor
  · have h := (validateJsonInstance_spec compileOk schemaArrObj Json.null true).1
      rfl (by decide)
    rw [h]
    decide
  · exact (validateJsonInstance_spec compileErrPath schemaArrObj Json.null false).2
      { code := "schema_validation", path := "/",
        message_key := "runner.schema.validation_failed", fallback := "boom" }
      (by decide) rfl

end Greentic
